import Mathlib

/-!
Verification of the StdIO protocol layer (clients/tabby-agent/src/StdIO.ts):
stream framing, line-delimited JSON codec, request dispatch with an
ongoing-request registry, cooperative cancellation, and event broadcast.

The JSON values travelling on the wire are embedded as `JValue`
(numbers restricted to integers).  `JSON.stringify` / `JSON.parse` are
platform builtins; they are modelled from the spec's wire format as
`serialize` / `parseJson`.
-/

set_option maxHeartbeats 1000000

/-- Strings on the wire are modelled as lists of characters. -/
abbrev JStr := List Char

/-- JSON values (the payloads carried on the wire); numbers are integers. -/
inductive JValue where
  | null : JValue
  | bool (b : Bool) : JValue
  | num (n : Int) : JValue
  | str (s : JStr) : JValue
  | arr (items : List JValue) : JValue
  | obj (fields : List (JStr × JValue)) : JValue
deriving Repr

mutual

def JValue.beq : JValue → JValue → Bool
  | .null, .null => true
  | .bool a, .bool b => a = b
  | .num a, .num b => a = b
  | .str a, .str b => a = b
  | .arr a, .arr b => beqItems a b
  | .obj a, .obj b => beqFields a b
  | _, _ => false

def beqItems : List JValue → List JValue → Bool
  | [], [] => true
  | a :: as, b :: bs => JValue.beq a b && beqItems as bs
  | _, _ => false

def beqFields : List (JStr × JValue) → List (JStr × JValue) → Bool
  | [], [] => true
  | (k, v) :: as, (l, w) :: bs => decide (k = l) && JValue.beq v w && beqFields as bs
  | _, _ => false

end

mutual

theorem JValue.beq_iff : ∀ a b : JValue, JValue.beq a b = true ↔ a = b
  | .null, b => by cases b <;> simp [JValue.beq]
  | .bool a, b => by cases b <;> simp [JValue.beq]
  | .num a, b => by cases b <;> simp [JValue.beq]
  | .str a, b => by cases b <;> simp [JValue.beq]
  | .arr a, b => by
      cases b with
      | arr c => simp only [JValue.beq]; rw [beqItems_iff a c]; simp
      | null => simp [JValue.beq]
      | bool x => simp [JValue.beq]
      | num x => simp [JValue.beq]
      | str x => simp [JValue.beq]
      | obj x => simp [JValue.beq]
  | .obj a, b => by
      cases b with
      | obj c => simp only [JValue.beq]; rw [beqFields_iff a c]; simp
      | null => simp [JValue.beq]
      | bool x => simp [JValue.beq]
      | num x => simp [JValue.beq]
      | str x => simp [JValue.beq]
      | arr x => simp [JValue.beq]

theorem beqItems_iff : ∀ a b : List JValue, beqItems a b = true ↔ a = b
  | [], b => by cases b <;> simp [beqItems]
  | a :: as, [] => by simp [beqItems]
  | a :: as, b :: bs => by
      simp only [beqItems, Bool.and_eq_true]
      rw [JValue.beq_iff, beqItems_iff]
      simp

theorem beqFields_iff : ∀ a b : List (JStr × JValue), beqFields a b = true ↔ a = b
  | [], b => by cases b <;> simp [beqFields]
  | a :: as, [] => by simp [beqFields]
  | (k, v) :: as, (l, w) :: bs => by
      simp only [beqFields, Bool.and_eq_true]
      rw [JValue.beq_iff, beqFields_iff]
      simp [decide_eq_true_eq, Prod.ext_iff, and_assoc]

end

instance : DecidableEq JValue := fun a b =>
  decidable_of_iff (JValue.beq a b = true) (JValue.beq_iff a b)

/-- The character for a single decimal digit. -/
def digitChar (d : Nat) : Char :=
  if d = 0 then '0' else if d = 1 then '1' else if d = 2 then '2'
  else if d = 3 then '3' else if d = 4 then '4' else if d = 5 then '5'
  else if d = 6 then '6' else if d = 7 then '7' else if d = 8 then '8'
  else '9'

/-- Numeric value of a decimal digit character. -/
def digVal (c : Char) : Nat := c.toNat - 48

/-- Helper for `natChars`: emit decimal digits, most significant first
(the fuel only bounds recursion depth). -/
def natCharsAux : Nat → Nat → List Char
  | 0, _ => []
  | fuel + 1, n => if n = 0 then [] else natCharsAux fuel (n / 10) ++ [digitChar (n % 10)]

/-- Decimal representation of a natural number, most significant digit first. -/
def natChars (n : Nat) : List Char :=
  if n = 0 then ['0'] else natCharsAux n n

theorem natCharsAux_eq : ∀ (fuel n : Nat), n ≤ fuel →
    natCharsAux fuel n = ((Nat.digits 10 n).map digitChar).reverse
  | 0, n, h => by
      have : n = 0 := by omega
      subst this
      simp [natCharsAux]
  | fuel + 1, n, h => by
      unfold natCharsAux
      split_ifs with h0
      · subst h0
        simp
      · have hdig : Nat.digits 10 n = n % 10 :: Nat.digits 10 (n / 10) :=
          Nat.digits_def' (by norm_num : 1 < 10) (Nat.pos_of_ne_zero h0)

        have hdiv : n / 10 ≤ fuel := by
          have := Nat.div_lt_self (Nat.pos_of_ne_zero h0) (by norm_num : 1 < 10)
          omega
        rw [natCharsAux_eq fuel (n / 10) hdiv, hdig]
        simp

theorem natChars_eq (n : Nat) :
    natChars n = if n = 0 then ['0'] else ((Nat.digits 10 n).map digitChar).reverse := by
  unfold natChars
  split_ifs with h
  · rfl
  · exact natCharsAux_eq n n le_rfl

/-- Decimal representation of an integer (what `JSON.stringify` and JS
string coercion print for integral numbers). -/
def intChars (i : Int) : List Char :=
  if i < 0 then '-' :: natChars i.natAbs else natChars i.natAbs

theorem digVal_digitChar {d : Nat} (h : d < 10) : digVal (digitChar d) = d := by
  interval_cases d <;> decide

theorem digitChar_isDigit {d : Nat} (h : d < 10) : (digitChar d).isDigit = true := by
  interval_cases d <;> decide

theorem digitChar_isDigit_all (d : Nat) : (digitChar d).isDigit = true := by
  unfold digitChar
  split_ifs <;> decide

theorem digitChar_ne_newline (d : Nat) : digitChar d ≠ '\n' := by
  unfold digitChar
  split_ifs <;> decide

theorem natChars_ne_nil (n : Nat) : natChars n ≠ [] := by
  rw [natChars_eq]
  split
  · simp
  · rename_i h
    have hd : Nat.digits 10 n ≠ [] := Nat.digits_ne_nil_iff_ne_zero.mpr h
    simp [hd]

theorem natChars_all_digit (n : Nat) : ∀ c ∈ natChars n, c.isDigit = true := by
  intro c hc
  rw [natChars_eq] at hc
  split at hc
  · simp at hc; subst hc; decide
  · simp only [List.mem_reverse, List.mem_map] at hc
    obtain ⟨d, hd, rfl⟩ := hc
    exact digitChar_isDigit (Nat.digits_lt_base (by norm_num : 1 < 10) hd)

/-- Hex digit character (lowercase), for `\u00XX` escapes. -/
def hexDigit (d : Nat) : Char :=
  if d < 10 then digitChar d
  else if d = 10 then 'a' else if d = 11 then 'b' else if d = 12 then 'c'
  else if d = 13 then 'd' else if d = 14 then 'e' else 'f'

/-- Numeric value of a hex digit character. -/
def hexVal (c : Char) : Nat :=
  if c.isDigit then digVal c else c.toNat - 87

/-- Modelled from the spec: the escaping `JSON.stringify` applies to one
string character (quote, backslash, and control characters). -/
def escapeChar (c : Char) : List Char :=
  if c = '"' then ['\\', '"']
  else if c = '\\' then ['\\', '\\']
  else if c = '\n' then ['\\', 'n']
  else if c = '\r' then ['\\', 'r']
  else if c = '\t' then ['\\', 't']
  else if c.toNat = 8 then ['\\', 'b']
  else if c.toNat = 12 then ['\\', 'f']
  else if c.toNat < 32 then ['\\', 'u', '0', '0', hexDigit (c.toNat / 16), hexDigit (c.toNat % 16)]
  else [c]

def escapeString (s : JStr) : List Char := (s.map escapeChar).flatten

/-- Hexadecimal digit test. -/
def isHexChar (c : Char) : Bool :=
  c.isDigit || (decide ('a' ≤ c) && decide (c ≤ 'f')) || (decide ('A' ≤ c) && decide (c ≤ 'F'))

mutual

/-- Modelled from the spec: `JSON.stringify` on a wire value
(`encode(response) → line`, a single line with no embedded terminator). -/
def serialize : JValue → List Char
  | .null => 'n' :: 'u' :: "ll".toList
  | .bool true => 't' :: 'r' :: "ue".toList
  | .bool false => 'f' :: 'a' :: "lse".toList
  | .num i => intChars i
  | .str s => '"' :: (escapeString s ++ ['"'])
  | .arr l => '[' :: (serializeItems l ++ [']'])
  | .obj fs => '\x7b' :: (serializeFields fs ++ ['\x7d'])

def serializeItems : List JValue → List Char
  | [] => []
  | [x] => serialize x
  | x :: y :: xs => serialize x ++ ',' :: serializeItems (y :: xs)

def serializeFields : List (JStr × JValue) → List Char
  | [] => []
  | [(k, v)] => '"' :: (escapeString k ++ '"' :: ':' :: serialize v)
  | (k, v) :: f :: fs =>
      ('"' :: (escapeString k ++ '"' :: ':' :: serialize v)) ++ ',' :: serializeFields (f :: fs)

end

/-- Consume leading decimal digits, accumulating their value. -/
def parseDigitsAux : List Char → Nat → Nat × List Char
  | [], acc => (acc, [])
  | c :: r, acc => if c.isDigit then parseDigitsAux r (acc * 10 + digVal c) else (acc, c :: r)

/-- Parse a JSON integer (optional minus sign followed by digits). -/
def parseNumber : List Char → Option (Int × List Char)
  | [] => none
  | c :: r =>
      if c = '-' then
        match r with
        | [] => none
        | c2 :: r2 =>
            if c2.isDigit then
              let p := parseDigitsAux (c2 :: r2) 0
              some (-(p.1 : Int), p.2)
            else none
      else if c.isDigit then
        let p := parseDigitsAux (c :: r) 0
        some ((p.1 : Int), p.2)
      else none

/-- The character an escape letter after a backslash stands for
(`none` for the `u` escape and for invalid escapes). -/
def unescapeChar (e : Char) : Option Char :=
  if e = '"' then some '"'
  else if e = '\\' then some '\\'
  else if e = '/' then some '/'
  else if e = 'n' then some '\n'
  else if e = 'r' then some '\r'
  else if e = 't' then some '\t'
  else if e = 'b' then some (Char.ofNat 8)
  else if e = 'f' then some (Char.ofNat 12)
  else none

/-- Parse the body of a JSON string after the opening quote. -/
def parseStringAux : List Char → Option (JStr × List Char)
  | [] => none
  | c :: r =>
      if c = '"' then some ([], r)
      else if c = '\\' then
        match r with
        | [] => none
        | e :: r1 =>
            if e = 'u' then
              match r1 with
              | h1 :: h2 :: h3 :: h4 :: r2 =>
                  if isHexChar h1 ∧ isHexChar h2 ∧ isHexChar h3 ∧ isHexChar h4 then
                    (parseStringAux r2).map (fun p =>
                      (Char.ofNat (((hexVal h1 * 16 + hexVal h2) * 16 + hexVal h3) * 16 + hexVal h4)
                        :: p.1, p.2))
                  else none
              | _ => none
            else
              match unescapeChar e with
              | some d => (parseStringAux r1).map (fun p => (d :: p.1, p.2))
              | none => none
      else if c.toNat < 32 then none
      else (parseStringAux r).map (fun p => (c :: p.1, p.2))

/-- JSON insignificant whitespace characters. -/
def isWsChar (c : Char) : Bool :=
  c = ' ' || c = '\n' || c = '\t' || c = '\r'

/-- Skip JSON insignificant whitespace. -/
def skipWs : List Char → List Char
  | [] => []
  | c :: r => if isWsChar c then skipWs r else c :: r

mutual

/-- Modelled from the spec: `JSON.parse` on one value (fuelled recursive
descent; numbers restricted to integers). -/
def parseValue : Nat → List Char → Option (JValue × List Char)
  | 0, _ => none
  | n + 1, s =>
    match skipWs s with
    | [] => none
    | c :: r =>
      if c = 'n' then
        match r with
        | 'u' :: 'l' :: 'l' :: r2 => some (.null, r2)
        | _ => none
      else if c = 't' then
        match r with
        | 'r' :: 'u' :: 'e' :: r2 => some (.bool true, r2)
        | _ => none
      else if c = 'f' then
        match r with
        | 'a' :: 'l' :: 's' :: 'e' :: r2 => some (.bool false, r2)
        | _ => none
      else if c = '"' then (parseStringAux r).map (fun p => (.str p.1, p.2))
      else if c = '[' then
        match skipWs r with
        | [] => none
        | c2 :: r2 =>
            if c2 = ']' then some (.arr [], r2)
            else (parseItems n (c2 :: r2)).map (fun p => (.arr p.1, p.2))
      else if c = '\x7b' then
        match skipWs r with
        | [] => none
        | c2 :: r2 =>
            if c2 = '\x7d' then some (.obj [], r2)
            else (parseFields n (c2 :: r2)).map (fun p => (.obj p.1, p.2))
      else (parseNumber (c :: r)).map (fun p => (.num p.1, p.2))

/-- Parse one or more array items followed by the closing bracket. -/
def parseItems : Nat → List Char → Option (List JValue × List Char)
  | 0, _ => none
  | n + 1, s =>
    match parseValue n s with
    | none => none
    | some (v, r) =>
      match skipWs r with
      | [] => none
      | c :: r2 =>
          if c = ',' then (parseItems n r2).map (fun p => (v :: p.1, p.2))
          else if c = ']' then some ([v], r2)
          else none

/-- Parse one or more object fields followed by the closing brace. -/
def parseFields : Nat → List Char → Option (List (JStr × JValue) × List Char)
  | 0, _ => none
  | n + 1, s =>
    match skipWs s with
    | [] => none
    | c :: r =>
      if c = '"' then
        match parseStringAux r with
        | none => none
        | some (k, r1) =>
          match skipWs r1 with
          | [] => none
          | c1 :: r2 =>
            if c1 = ':' then
              match parseValue n r2 with
              | none => none
              | some (v, r3) =>
                match skipWs r3 with
                | [] => none
                | c2 :: r4 =>
                    if c2 = ',' then (parseFields n r4).map (fun p => ((k, v) :: p.1, p.2))
                    else if c2 = '\x7d' then some ([(k, v)], r4)
                    else none
            else none
      else none

end

/-- Modelled from the spec: `JSON.parse` on a whole line (`decode(line)`);
fails unless the line is one JSON value surrounded only by whitespace. -/
def parseJson (line : List Char) : Option JValue :=
  match parseValue (line.length + 1) line with
  | some (v, r) => if skipWs r = [] then some v else none
  | none => none

theorem isDigit_bounds {c : Char} (h : c.isDigit = true) : 48 ≤ c.toNat ∧ c.toNat ≤ 57 := by
  simp [Char.isDigit, decide_eq_true_eq] at h
  exact h

theorem isDigit_ne {c d : Char} (h : c.isDigit = true) (hd : d.toNat < 48 ∨ 57 < d.toNat) :
    c ≠ d := by
  intro he
  subst he
  obtain ⟨h1, h2⟩ := isDigit_bounds h
  omega

/-- First characters a serialized JSON value can have. -/
def startChar (c : Char) : Bool :=
  c = 'n' || c = 't' || c = 'f' || c = '"' || c = '[' || c = '\x7b' || c = '-' || c.isDigit

theorem startChar_not_ws {c : Char} (h : startChar c = true) : isWsChar c = false := by
  simp only [startChar, Bool.or_eq_true, decide_eq_true_eq] at h
  rcases h with ((((((h | h) | h) | h) | h) | h) | h) | h
  all_goals first
    | (subst h; decide)
    | (simp only [isWsChar, Bool.or_eq_false_iff, decide_eq_false_iff_not]
       exact ⟨⟨⟨isDigit_ne h (by decide), isDigit_ne h (by decide)⟩,
         isDigit_ne h (by decide)⟩, isDigit_ne h (by decide)⟩)

theorem startChar_ne_close {c : Char} (h : startChar c = true) :
    c ≠ ']' ∧ c ≠ '\x7d' ∧ c ≠ ',' ∧ c ≠ ':' := by
  simp only [startChar, Bool.or_eq_true, decide_eq_true_eq] at h
  rcases h with ((((((h | h) | h) | h) | h) | h) | h) | h
  all_goals first
    | (subst h; refine ⟨?_, ?_, ?_, ?_⟩ <;> decide)
    | (exact ⟨isDigit_ne h (by decide), isDigit_ne h (by decide),
        isDigit_ne h (by decide), isDigit_ne h (by decide)⟩)

theorem skipWs_not_ws {c : Char} (r : List Char) (h : isWsChar c = false) :
    skipWs (c :: r) = c :: r := by
  simp [skipWs, h]

/-- The next character (if any) is not a digit, so digit parsing stops here. -/
def noDigitHead : List Char → Prop
  | [] => True
  | c :: _ => c.isDigit = false

theorem serialize_head (v : JValue) : ∃ c t, serialize v = c :: t ∧ startChar c = true := by
  cases v with
  | null => exact ⟨'n', _, rfl, by decide⟩
  | bool b =>
      cases b with
      | false => exact ⟨'f', _, rfl, by decide⟩
      | true => exact ⟨'t', _, rfl, by decide⟩
  | num i =>
      by_cases hi : i < 0
      · refine ⟨'-', natChars i.natAbs, ?_, by decide⟩
        simp [serialize, intChars, hi]
      · obtain ⟨c, t, hct⟩ := List.exists_cons_of_ne_nil (natChars_ne_nil i.natAbs)
        refine ⟨c, t, ?_, ?_⟩
        · simp [serialize, intChars, hi, hct]
        · have hd : c.isDigit = true := natChars_all_digit i.natAbs c (by rw [hct]; simp)
          simp [startChar, hd]
  | str s => exact ⟨'"', _, rfl, by decide⟩
  | arr l => exact ⟨'[', _, rfl, by decide⟩
  | obj fs => exact ⟨'\x7b', _, rfl, by decide⟩

theorem parseDigitsAux_append :
    ∀ (ds : List Char) (acc : Nat) (r : List Char),
      (∀ c ∈ ds, c.isDigit = true) → noDigitHead r →
      parseDigitsAux (ds ++ r) acc = (ds.foldl (fun a c => a * 10 + digVal c) acc, r)
  | [], acc, r, _, hr => by
      cases r with
      | nil => rfl
      | cons c r' =>
          simp only [noDigitHead] at hr
          simp [parseDigitsAux, hr]
  | d :: ds, acc, r, hds, hr => by
      have hd : d.isDigit = true := hds d (by simp)
      have hstep : parseDigitsAux ((d :: ds) ++ r) acc
          = parseDigitsAux (ds ++ r) (acc * 10 + digVal d) := by
        simp [parseDigitsAux, hd]
      rw [hstep, parseDigitsAux_append ds _ r (fun c hc => hds c (by simp [hc])) hr]
      simp

theorem foldr_digits :
    ∀ (ds : List Nat), (∀ d ∈ ds, d < 10) →
      (ds.map digitChar).foldr (fun c a => a * 10 + digVal c) 0 = Nat.ofDigits 10 ds
  | [], _ => by simp [Nat.ofDigits_nil]
  | d :: ds, h => by
      simp only [List.map_cons, List.foldr_cons, Nat.ofDigits_cons]
      rw [foldr_digits ds (fun x hx => h x (by simp [hx]))]
      rw [digVal_digitChar (h d (by simp))]
      ring

theorem foldl_natChars (n : Nat) :
    (natChars n).foldl (fun a c => a * 10 + digVal c) 0 = n := by
  rw [natChars_eq]
  split
  · rename_i h
    subst h
    simp [digVal]
  · rename_i h
    rw [List.foldl_reverse]
    have h2 := foldr_digits (Nat.digits 10 n)
      (fun d hd => Nat.digits_lt_base (by norm_num : 1 < 10) hd)
    calc ((Nat.digits 10 n).map digitChar).foldr (fun x y => y * 10 + digVal x) 0
        = ((Nat.digits 10 n).map digitChar).foldr (fun c a => a * 10 + digVal c) 0 := rfl
      _ = Nat.ofDigits 10 (Nat.digits 10 n) := h2
      _ = n := Nat.ofDigits_digits 10 n

theorem parseDigitsAux_natChars (n : Nat) (r : List Char) (hr : noDigitHead r) :
    parseDigitsAux (natChars n ++ r) 0 = (n, r) := by
  rw [parseDigitsAux_append (natChars n) 0 r (natChars_all_digit n) hr, foldl_natChars]

theorem parseNumber_intChars (i : Int) (r : List Char) (hr : noDigitHead r) :
    parseNumber (intChars i ++ r) = some (i, r) := by
  by_cases hi : i < 0
  · obtain ⟨c, t, hct⟩ := List.exists_cons_of_ne_nil (natChars_ne_nil i.natAbs)
    have hcd : c.isDigit = true := natChars_all_digit _ c (by rw [hct]; simp)
    have he : intChars i ++ r = '-' :: (c :: (t ++ r)) := by
      simp [intChars, hi, hct]
    rw [he]
    have hp : parseDigitsAux (c :: (t ++ r)) 0 = (i.natAbs, r) := by
      have : c :: (t ++ r) = natChars i.natAbs ++ r := by rw [hct]; simp
      rw [this, parseDigitsAux_natChars _ _ hr]
    simp only [parseNumber, if_pos rfl, hcd, if_pos, hp]
    simp only [Option.some.injEq, Prod.mk.injEq]
    exact ⟨by omega, trivial⟩
  · obtain ⟨c, t, hct⟩ := List.exists_cons_of_ne_nil (natChars_ne_nil i.natAbs)
    have hcd : c.isDigit = true := natChars_all_digit _ c (by rw [hct]; simp)
    have hcm : c ≠ '-' := isDigit_ne hcd (by decide)
    have he : intChars i ++ r = c :: (t ++ r) := by
      simp [intChars, hi, hct]
    rw [he]
    have hp : parseDigitsAux (c :: (t ++ r)) 0 = (i.natAbs, r) := by
      have : c :: (t ++ r) = natChars i.natAbs ++ r := by rw [hct]; simp
      rw [this, parseDigitsAux_natChars _ _ hr]
    simp only [parseNumber, hcm, if_false, hcd, if_pos, hp, if_neg]
    simp only [Option.some.injEq, Prod.mk.injEq]
    exact ⟨by omega, trivial⟩

theorem hexVal_hexDigit {d : Nat} (h : d < 16) : hexVal (hexDigit d) = d := by
  interval_cases d <;> decide

theorem isHexChar_hexDigit {d : Nat} (h : d < 16) : isHexChar (hexDigit d) = true := by
  interval_cases d <;> decide

theorem parseStringAux_escape : ∀ (s : JStr) (r : List Char),
    parseStringAux (escapeString s ++ '"' :: r) = some (s, r)
  | [], r => by
      simp only [escapeString, List.map_nil, List.flatten_nil, List.nil_append]
      unfold parseStringAux
      simp
  | c :: s, r => by
      have ih := parseStringAux_escape s r
      have he : escapeString (c :: s) = escapeChar c ++ escapeString s := by
        simp [escapeString]
      rw [he, List.append_assoc]
      unfold escapeChar
      split_ifs with h1 h2 h3 h4 h5 h6 h7 h8
      · subst h1
        unfold parseStringAux
        simp [unescapeChar, ih]
      · subst h2
        unfold parseStringAux
        simp [unescapeChar, ih]
      · subst h3
        unfold parseStringAux
        simp [unescapeChar, ih]
      · subst h4
        unfold parseStringAux
        simp [unescapeChar, ih]
      · subst h5
        unfold parseStringAux
        simp [unescapeChar, ih]
      · have hc : Char.ofNat 8 = c := by rw [← h6]; exact Char.ofNat_toNat c
        unfold parseStringAux
        simp [unescapeChar, ih, hc]
        exact hc
      · have hc : Char.ofNat 12 = c := by rw [← h7]; exact Char.ofNat_toNat c
        unfold parseStringAux
        simp [unescapeChar, ih, hc]
        exact hc
      · have hd1 : c.toNat / 16 < 16 := by omega
        have hd2 : c.toNat % 16 < 16 := by omega
        have hx1 := isHexChar_hexDigit hd1
        have hx2 := isHexChar_hexDigit hd2
        have hv1 := hexVal_hexDigit hd1
        have hv2 := hexVal_hexDigit hd2
        have hval : ((hexVal '0' * 16 + hexVal '0') * 16 + hexVal (hexDigit (c.toNat / 16))) * 16
            + hexVal (hexDigit (c.toNat % 16)) = c.toNat := by
          rw [hv1, hv2]
          have h0 : hexVal '0' = 0 := by decide
          rw [h0]
          omega
        have hval' : Char.ofNat (((hexVal '0' * 16 + hexVal '0') * 16
            + hexVal (hexDigit (c.toNat / 16))) * 16 + hexVal (hexDigit (c.toNat % 16))) = c := by
          rw [hval]
          exact Char.ofNat_toNat c
        unfold parseStringAux
        simp [hx1, hx2, hval', ih]
        all_goals decide
      · unfold parseStringAux
        simp [h1, h2, h8, ih]

mutual

/-- Node count of a JSON value (fuel bound for the parser). -/
def jsize : JValue → Nat
  | .null => 1
  | .bool _ => 1
  | .num _ => 1
  | .str _ => 1
  | .arr l => 1 + jsizeItems l
  | .obj fs => 1 + jsizeFields fs

def jsizeItems : List JValue → Nat
  | [] => 0
  | x :: xs => 1 + jsize x + jsizeItems xs

def jsizeFields : List (JStr × JValue) → Nat
  | [] => 0
  | (_, v) :: fs => 1 + jsize v + jsizeFields fs

end

theorem jsize_pos (v : JValue) : 1 ≤ jsize v := by
  cases v <;> simp [jsize]

theorem isDigit_not_ws {c : Char} (h : c.isDigit = true) : isWsChar c = false := by
  simp only [isWsChar, Bool.or_eq_false_iff, decide_eq_false_iff_not]
  exact ⟨⟨⟨isDigit_ne h (by decide), isDigit_ne h (by decide)⟩,
    isDigit_ne h (by decide)⟩, isDigit_ne h (by decide)⟩

theorem serializeItems_cons_head (x : JValue) (xs : List JValue) :
    ∃ tail, serializeItems (x :: xs) = serialize x ++ tail := by
  cases xs with
  | nil => exact ⟨[], by simp [serializeItems]⟩
  | cons y ys => exact ⟨',' :: serializeItems (y :: ys), by simp [serializeItems]⟩

theorem serializeFields_cons_head (f : JStr × JValue) (fs : List (JStr × JValue)) :
    ∃ tail, serializeFields (f :: fs) = '"' :: tail := by
  obtain ⟨k, v⟩ := f
  cases fs with
  | nil => exact ⟨escapeString k ++ '"' :: ':' :: serialize v, by simp [serializeFields]⟩
  | cons g gs =>
      exact ⟨escapeString k ++ '"' :: ':' :: (serialize v ++ ',' :: serializeFields (g :: gs)),
        by simp [serializeFields]⟩

theorem parseValue_default (n : Nat) (c : Char) (r : List Char)
    (hws : isWsChar c = false) (h1 : c ≠ 'n') (h2 : c ≠ 't') (h3 : c ≠ 'f')
    (h4 : c ≠ '"') (h5 : c ≠ '[') (h6 : c ≠ '\x7b') :
    parseValue (n + 1) (c :: r) = (parseNumber (c :: r)).map (fun p => (JValue.num p.1, p.2)) := by
  unfold parseValue
  rw [skipWs_not_ws r hws]
  simp [h1, h2, h3, h4, h5, h6]

mutual

theorem parseValue_serialize : ∀ (n : Nat) (v : JValue) (r : List Char),
    jsize v ≤ n → noDigitHead r →
    parseValue n (serialize v ++ r) = some (v, r)
  | 0, v, _, hn, _ => by
      have := jsize_pos v
      omega
  | n + 1, v, r, hn, hr => by
      cases v with
      | null =>
          have he : serialize JValue.null ++ r = 'n' :: 'u' :: 'l' :: 'l' :: r := by
            simp [serialize]
          rw [he]
          unfold parseValue
          rw [skipWs_not_ws _ (by decide)]
          simp
      | bool b =>
          cases b with
          | true =>
              have he : serialize (JValue.bool true) ++ r = 't' :: 'r' :: 'u' :: 'e' :: r := by
                simp [serialize]
              rw [he]
              unfold parseValue
              rw [skipWs_not_ws _ (by decide)]
              simp
          | false =>
              have he : serialize (JValue.bool false) ++ r
                  = 'f' :: 'a' :: 'l' :: 's' :: 'e' :: r := by
                simp [serialize]
              rw [he]
              unfold parseValue
              rw [skipWs_not_ws _ (by decide)]
              simp
      | str s =>
          have he : serialize (JValue.str s) ++ r = '"' :: (escapeString s ++ '"' :: r) := by
            simp [serialize]
          rw [he]
          unfold parseValue
          rw [skipWs_not_ws _ (by decide)]
          simp [parseStringAux_escape s r]
      | num i =>
          by_cases hi : i < 0
          · have he : serialize (JValue.num i) ++ r = '-' :: (natChars i.natAbs ++ r) := by
              simp [serialize, intChars, hi]
            rw [he]
            rw [parseValue_default n '-' _ (by decide) (by decide) (by decide) (by decide)
              (by decide) (by decide) (by decide)]
            have hb : '-' :: (natChars i.natAbs ++ r) = intChars i ++ r := by
              simp [intChars, hi]
            rw [hb, parseNumber_intChars i r hr]
            rfl
          · obtain ⟨c, t, hct⟩ := List.exists_cons_of_ne_nil (natChars_ne_nil i.natAbs)
            have hcd : c.isDigit = true := natChars_all_digit _ c (by rw [hct]; simp)
            have he : serialize (JValue.num i) ++ r = c :: (t ++ r) := by
              simp [serialize, intChars, hi, hct]
            rw [he]
            rw [parseValue_default n c _ (isDigit_not_ws hcd) (isDigit_ne hcd (by decide))
              (isDigit_ne hcd (by decide)) (isDigit_ne hcd (by decide))
              (isDigit_ne hcd (by decide)) (isDigit_ne hcd (by decide))
              (isDigit_ne hcd (by decide))]
            have hb : c :: (t ++ r) = intChars i ++ r := by
              simp [intChars, hi, hct]
            rw [hb, parseNumber_intChars i r hr]
            rfl
      | arr l =>
          cases l with
          | nil =>
              have he : serialize (JValue.arr []) ++ r = '[' :: (']' :: r) := by
                simp [serialize, serializeItems]
              rw [he]
              unfold parseValue
              rw [skipWs_not_ws _ (by decide)]
              simp [skipWs, isWsChar]
          | cons x xs =>
              obtain ⟨c, t, hct, hst⟩ := serialize_head x
              obtain ⟨tail, htail⟩ := serializeItems_cons_head x xs
              have hu : serializeItems (x :: xs) ++ ']' :: r
                  = c :: (t ++ (tail ++ ']' :: r)) := by
                rw [htail, hct]
                simp
              have he : serialize (JValue.arr (x :: xs)) ++ r
                  = '[' :: (serializeItems (x :: xs) ++ ']' :: r) := by
                simp [serialize]
              have hs : skipWs (c :: (t ++ (tail ++ ']' :: r)))
                  = c :: (t ++ (tail ++ ']' :: r)) :=
                skipWs_not_ws _ (startChar_not_ws hst)
              have hne : c ≠ ']' := (startChar_ne_close hst).1
              have hp := parseItems_serialize n (x :: xs) r (by simp)
                (by
                  have h1 : 1 + jsizeItems (x :: xs) ≤ n + 1 := by simpa [jsize] using hn
                  omega)
              rw [hu] at hp
              rw [he]
              unfold parseValue
              rw [skipWs_not_ws _ (by decide)]
              simp [hu, hs, hne, hp]
      | obj fs =>
          cases fs with
          | nil =>
              have he : serialize (JValue.obj []) ++ r = '\x7b' :: ('\x7d' :: r) := by
                simp [serialize, serializeFields]
              rw [he]
              unfold parseValue
              rw [skipWs_not_ws _ (by decide)]
              simp [skipWs, isWsChar]
          | cons f fs' =>
              obtain ⟨tail, htail⟩ := serializeFields_cons_head f fs'
              have hu : serializeFields (f :: fs') ++ '\x7d' :: r
                  = '"' :: (tail ++ '\x7d' :: r) := by
                rw [htail]
                simp
              have he : serialize (JValue.obj (f :: fs')) ++ r
                  = '\x7b' :: (serializeFields (f :: fs') ++ '\x7d' :: r) := by
                simp [serialize]
              have hs : skipWs ('"' :: (tail ++ '\x7d' :: r))
                  = '"' :: (tail ++ '\x7d' :: r) :=
                skipWs_not_ws _ (by decide)
              have hp := parseFields_serialize n (f :: fs') r (by simp)
                (by
                  have h1 : 1 + jsizeFields (f :: fs') ≤ n + 1 := by simpa [jsize] using hn
                  omega)
              rw [hu] at hp
              rw [he]
              unfold parseValue
              rw [skipWs_not_ws _ (by decide)]
              simp [hu, hs, hp]

theorem parseItems_serialize : ∀ (n : Nat) (l : List JValue) (r : List Char),
    l ≠ [] → jsizeItems l ≤ n →
    parseItems n (serializeItems l ++ ']' :: r) = some (l, r)
  | _, [], _, h, _ => absurd rfl h
  | 0, x :: xs, _, _, hn => by
      simp [jsizeItems] at hn
  | n + 1, x :: xs, r, _, hn => by
      have hn' : 1 + jsize x + jsizeItems xs ≤ n + 1 := by
        simpa [jsizeItems] using hn
      cases xs with
      | nil =>
          have h0 : jsizeItems ([] : List JValue) = 0 := rfl
          have hv := parseValue_serialize n x (']' :: r)
            (by omega) (show (']' : Char).isDigit = false by decide)
          have he : serializeItems [x] ++ ']' :: r = serialize x ++ ']' :: r := by
            simp [serializeItems]
          unfold parseItems
          rw [he]
          simp [hv, skipWs, isWsChar]
      | cons y ys =>
          have hv := parseValue_serialize n x (',' :: (serializeItems (y :: ys) ++ ']' :: r))
            (by omega) (show (',' : Char).isDigit = false by decide)
          have he : serializeItems (x :: y :: ys) ++ ']' :: r
              = serialize x ++ (',' :: (serializeItems (y :: ys) ++ ']' :: r)) := by
            simp [serializeItems]
          have hrec := parseItems_serialize n (y :: ys) r (by simp)
            (by simp only [jsizeItems] at hn' ⊢; omega)
          unfold parseItems
          rw [he]
          simp [hv, hrec, skipWs, isWsChar]

theorem parseFields_serialize : ∀ (n : Nat) (fs : List (JStr × JValue)) (r : List Char),
    fs ≠ [] → jsizeFields fs ≤ n →
    parseFields n (serializeFields fs ++ '\x7d' :: r) = some (fs, r)
  | _, [], _, h, _ => absurd rfl h
  | 0, f :: fs, _, _, hn => by
      obtain ⟨k, v⟩ := f
      simp [jsizeFields] at hn
  | n + 1, (k, v) :: fs, r, _, hn => by
      have hn' : 1 + jsize v + jsizeFields fs ≤ n + 1 := by
        simpa [jsizeFields] using hn
      cases fs with
      | nil =>
          have h0 : jsizeFields ([] : List (JStr × JValue)) = 0 := rfl
          have hv := parseValue_serialize n v ('\x7d' :: r)
            (by omega) (show ('\x7d' : Char).isDigit = false by decide)
          have he : serializeFields [(k, v)] ++ '\x7d' :: r
              = '"' :: (escapeString k ++ '"' :: (':' :: (serialize v ++ '\x7d' :: r))) := by
            simp [serializeFields]
          unfold parseFields
          rw [he, skipWs_not_ws _ (show isWsChar '"' = false by decide)]
          simp [parseStringAux_escape, hv, skipWs, isWsChar]
      | cons g gs =>
          have hv := parseValue_serialize n v
            (',' :: (serializeFields (g :: gs) ++ '\x7d' :: r))
            (by omega) (show (',' : Char).isDigit = false by decide)
          have he : serializeFields ((k, v) :: g :: gs) ++ '\x7d' :: r
              = '"' :: (escapeString k ++ '"' :: (':' ::
                  (serialize v ++ (',' :: (serializeFields (g :: gs) ++ '\x7d' :: r))))) := by
            simp [serializeFields]
          have hrec := parseFields_serialize n (g :: gs) r (by simp)
            (by simp only [jsizeFields] at hn' ⊢; omega)
          unfold parseFields
          rw [he, skipWs_not_ws _ (show isWsChar '"' = false by decide)]
          simp [parseStringAux_escape, hv, hrec, skipWs, isWsChar]

end

mutual

theorem jsize_le_len : ∀ v : JValue, jsize v ≤ (serialize v).length
  | .null => by simp [jsize, serialize]
  | .bool b => by cases b <;> simp [jsize, serialize]
  | .num i => by
      simp only [jsize, serialize, intChars]
      have h1 : 1 ≤ (natChars i.natAbs).length :=
        List.length_pos.mpr (natChars_ne_nil i.natAbs)
      split <;> simp <;> omega
  | .str s => by simp [jsize, serialize]
  | .arr l => by
      have h := jsizeItems_le_len l
      simp only [jsize, serialize, List.length_cons, List.length_append, List.length_singleton]
      omega
  | .obj fs => by
      have h := jsizeFields_le_len fs
      simp only [jsize, serialize, List.length_cons, List.length_append, List.length_singleton]
      omega

theorem jsizeItems_le_len : ∀ l : List JValue, jsizeItems l ≤ 1 + (serializeItems l).length
  | [] => by simp [jsizeItems, serializeItems]
  | [x] => by
      have h := jsize_le_len x
      have h0 : jsizeItems ([] : List JValue) = 0 := rfl
      simp only [jsizeItems, serializeItems, h0]
      omega
  | x :: y :: xs => by
      have h1 := jsize_le_len x
      have h2 := jsizeItems_le_len (y :: xs)
      have h3 : jsizeItems (y :: xs) = 1 + jsize y + jsizeItems xs := rfl
      simp only [jsizeItems, serializeItems, List.length_append, List.length_cons]
      omega

theorem jsizeFields_le_len :
    ∀ fs : List (JStr × JValue), jsizeFields fs ≤ 1 + (serializeFields fs).length
  | [] => by simp [jsizeFields, serializeFields]
  | [(k, v)] => by
      have h := jsize_le_len v
      have h0 : jsizeFields ([] : List (JStr × JValue)) = 0 := rfl
      simp only [jsizeFields, serializeFields, h0, List.length_cons, List.length_append]
      omega
  | (k, v) :: g :: gs => by
      obtain ⟨gk, gv⟩ := g
      have h1 := jsize_le_len v
      have h2 := jsizeFields_le_len ((gk, gv) :: gs)
      have h3 : jsizeFields ((gk, gv) :: gs) = 1 + jsize gv + jsizeFields gs := rfl
      simp only [jsizeFields, serializeFields, List.length_append, List.length_cons]
      omega

end

/-- Round-trip of the modelled codec: parsing a serialized value gives it back. -/
theorem parseJson_serialize (v : JValue) : parseJson (serialize v) = some v := by
  unfold parseJson
  have h := parseValue_serialize ((serialize v).length + 1) v []
    (by have := jsize_le_len v; omega) trivial
  rw [show serialize v ++ ([] : List Char) = serialize v from by simp] at h
  rw [h]
  simp [skipWs]

theorem hexDigit_ne_newline (d : Nat) : hexDigit d ≠ '\n' := by
  unfold hexDigit
  split_ifs with h
  · exact digitChar_ne_newline d
  all_goals decide

theorem escapeChar_no_newline (c : Char) : '\n' ∉ escapeChar c := by
  unfold escapeChar
  split_ifs with h1 h2 h3 h4 h5 h6 h7 h8
  · decide
  · decide
  · decide
  · decide
  · decide
  · decide
  · decide
  · intro hm
    simp only [List.mem_cons, List.not_mem_nil, or_false] at hm
    rcases hm with h | h | h | h | h | h
    · exact absurd h.symm (by decide)
    · exact absurd h.symm (by decide)
    · exact absurd h.symm (by decide)
    · exact absurd h.symm (by decide)
    · exact (hexDigit_ne_newline _) h.symm
    · exact (hexDigit_ne_newline _) h.symm
  · intro hm
    simp only [List.mem_singleton] at hm
    exact h3 hm.symm

theorem escapeString_no_newline (s : JStr) : '\n' ∉ escapeString s := by
  simp only [escapeString, List.mem_flatten, List.mem_map, not_exists, not_and]
  rintro l ⟨c, _, rfl⟩
  exact escapeChar_no_newline c

theorem natChars_no_newline (n : Nat) : '\n' ∉ natChars n := by
  intro hm
  have hd := natChars_all_digit n '\n' hm
  exact isDigit_ne hd (Or.inl (by decide)) rfl

theorem intChars_no_newline (i : Int) : '\n' ∉ intChars i := by
  unfold intChars
  split
  · intro hm
    simp only [List.mem_cons] at hm
    rcases hm with h | h
    · exact absurd h.symm (by decide)
    · exact natChars_no_newline _ h
  · exact natChars_no_newline _

mutual

theorem serialize_no_newline : ∀ v : JValue, '\n' ∉ serialize v
  | .null => by decide
  | .bool b => by cases b <;> decide
  | .num i => intChars_no_newline i
  | .str s => by
      intro hm
      simp only [serialize, List.mem_cons, List.mem_append, List.mem_singleton] at hm
      rcases hm with h | h | h
      · exact absurd h.symm (by decide)
      · exact escapeString_no_newline s h
      · exact absurd h.symm (by decide)
  | .arr l => by
      intro hm
      simp only [serialize, List.mem_cons, List.mem_append, List.mem_singleton] at hm
      rcases hm with h | h | h
      · exact absurd h.symm (by decide)
      · exact serializeItems_no_newline l h
      · exact absurd h.symm (by decide)
  | .obj fs => by
      intro hm
      simp only [serialize, List.mem_cons, List.mem_append, List.mem_singleton] at hm
      rcases hm with h | h | h
      · exact absurd h.symm (by decide)
      · exact serializeFields_no_newline fs h
      · exact absurd h.symm (by decide)

theorem serializeItems_no_newline : ∀ l : List JValue, '\n' ∉ serializeItems l
  | [] => by simp [serializeItems]
  | [x] => by
      intro hm
      exact serialize_no_newline x (by simpa [serializeItems] using hm)
  | x :: y :: xs => by
      intro hm
      simp only [serializeItems, List.mem_append, List.mem_cons] at hm
      rcases hm with h | h | h
      · exact serialize_no_newline x h
      · exact absurd h.symm (by decide)
      · exact serializeItems_no_newline (y :: xs) h

theorem serializeFields_no_newline : ∀ fs : List (JStr × JValue), '\n' ∉ serializeFields fs
  | [] => by simp [serializeFields]
  | [(k, v)] => by
      intro hm
      simp only [serializeFields, List.mem_cons, List.mem_append] at hm
      rcases hm with h | h | h | h
      · exact absurd h.symm (by decide)
      · exact escapeString_no_newline k h
      · exact absurd h.symm (by decide)
      · rcases h with h | h
        · exact absurd h.symm (by decide)
        · exact serialize_no_newline v h
  | (k, v) :: g :: gs => by
      intro hm
      simp only [serializeFields, List.mem_cons, List.mem_append] at hm
      rcases hm with (h | h | h | h | h) | h | h
      · exact absurd h.symm (by decide)
      · exact escapeString_no_newline k h
      · exact absurd h.symm (by decide)
      · exact absurd h.symm (by decide)
      · exact serialize_no_newline v h
      · exact absurd h.symm (by decide)
      · exact serializeFields_no_newline (g :: gs) h

end

/-- Modelled from the spec: `splitLines` (in `utils.ts`, outside `src/`)
splits a buffer into lines, each keeping its trailing newline; an
unterminated final fragment is kept as the last element. -/
def splitLines : List Char → List (List Char)
  | [] => []
  | c :: cs =>
      if c = '\n' then ['\n'] :: splitLines cs
      else
        match splitLines cs with
        | [] => [[c]]
        | l :: ls => (c :: l) :: ls

/-- Embeds `StdIO.handleInput` lines 56–67 (the framing part): append the
chunk to the buffer, split into lines; if the last line is unterminated it
becomes the new buffer and is not emitted, otherwise the buffer empties.
Returns (emitted lines, new buffer). -/
def handleInputFrame (buffer data : List Char) : List (List Char) × List Char :=
  match (splitLines (buffer ++ data)).getLast? with
  | none => ([], buffer ++ data)
  | some last =>
      if last.getLast? = some '\n' then (splitLines (buffer ++ data), [])
      else ((splitLines (buffer ++ data)).dropLast, last)

/-- Feed a sequence of chunks through the framer, accumulating emitted lines. -/
def feedAll (buffer : List Char) : List (List Char) → List (List Char) × List Char
  | [] => ([], buffer)
  | chunk :: rest =>
      let p := handleInputFrame buffer chunk
      let q := feedAll p.2 rest
      (p.1 ++ q.1, q.2)

/-- A well-formed emitted line: newline-terminated, no interior newline. -/
def WFLine (l : List Char) : Prop := l.getLast? = some '\n' ∧ '\n' ∉ l.dropLast

theorem splitLines_flatten : ∀ s : List Char, (splitLines s).flatten = s
  | [] => rfl
  | c :: cs => by
      have ih := splitLines_flatten cs
      unfold splitLines
      split_ifs with h
      · subst h
        simp [ih]
      · rcases hsl : splitLines cs with _ | ⟨l, ls⟩
        · rw [hsl] at ih
          simp at ih
          simp [ih]
        · rw [hsl] at ih
          simp only [List.flatten_cons] at ih ⊢
          simp [ih]

theorem splitLines_eq_nil_iff (s : List Char) : splitLines s = [] ↔ s = [] := by
  constructor
  · intro h
    have := splitLines_flatten s
    rw [h] at this
    simpa using this.symm
  · intro h
    subst h
    rfl

theorem splitLines_mem : ∀ s : List Char, ∀ l ∈ splitLines s, l ≠ [] ∧ '\n' ∉ l.dropLast
  | [], l, hl => by simp [splitLines] at hl
  | c :: cs, l, hl => by
      unfold splitLines at hl
      split_ifs at hl with h
      · rcases List.mem_cons.mp hl with rfl | hl
        · exact ⟨by simp, by simp⟩
        · exact splitLines_mem cs l hl
      · rcases hsl : splitLines cs with _ | ⟨l0, ls⟩
        · rw [hsl] at hl
          simp at hl
          subst hl
          exact ⟨by simp, by simp⟩
        · rw [hsl] at hl
          rcases List.mem_cons.mp hl with rfl | hl
          · have h0 := splitLines_mem cs l0 (by rw [hsl]; simp)
            obtain ⟨d, ds, rfl⟩ := List.exists_cons_of_ne_nil h0.1
            refine ⟨by simp, ?_⟩
            rw [List.dropLast_cons₂]
            intro hm
            rcases List.mem_cons.mp hm with he | hm
            · exact h he.symm
            · exact h0.2 hm
          · exact splitLines_mem cs l (by rw [hsl]; exact List.mem_cons_of_mem _ hl)

theorem splitLines_dropLast_nl :
    ∀ s : List Char, ∀ l ∈ (splitLines s).dropLast, l.getLast? = some '\n'
  | [], l, hl => by simp [splitLines] at hl
  | c :: cs, l, hl => by
      unfold splitLines at hl
      split_ifs at hl with h
      · rcases hsl : splitLines cs with _ | ⟨l0, ls⟩
        · rw [hsl] at hl
          simp at hl
        · rw [hsl] at hl
          rw [List.dropLast_cons₂] at hl
          rcases List.mem_cons.mp hl with rfl | hl
          · simp
          · exact splitLines_dropLast_nl cs l (by rw [hsl]; exact hl)
      · rcases hsl : splitLines cs with _ | ⟨l0, ls⟩
        · rw [hsl] at hl
          simp at hl
        · rw [hsl] at hl
          cases ls with
          | nil =>
              simp at hl
          | cons l1 ls1 =>
              rw [List.dropLast_cons₂] at hl
              rcases List.mem_cons.mp hl with rfl | hl
              · have h0 : l0.getLast? = some '\n' :=
                  splitLines_dropLast_nl cs l0 (by rw [hsl, List.dropLast_cons₂]; simp)
                have h1 := splitLines_mem cs l0 (by rw [hsl]; simp)
                obtain ⟨d, ds, rfl⟩ := List.exists_cons_of_ne_nil h1.1
                rw [List.getLast?_cons_cons]
                exact h0
              · exact splitLines_dropLast_nl cs l
                  (by rw [hsl, List.dropLast_cons₂]; exact List.mem_cons_of_mem _ hl)

theorem frame_flatten (b d : List Char) :
    (handleInputFrame b d).1.flatten ++ (handleInputFrame b d).2 = b ++ d := by
  unfold handleInputFrame
  rcases h : (splitLines (b ++ d)).getLast? with _ | last
  all_goals try dsimp only
  · simp
  · split_ifs with hnl
    · simp [splitLines_flatten]
    · have hdec : (splitLines (b ++ d)).dropLast ++ [last] = splitLines (b ++ d) :=
        List.dropLast_append_getLast? last (by simp [h])
      have : ((splitLines (b ++ d)).dropLast ++ [last]).flatten = b ++ d := by
        rw [hdec, splitLines_flatten]
      simp only [List.flatten_append, List.flatten_cons, List.flatten_nil,
        List.append_nil] at this
      simpa using this

theorem frame_lines_wf (b d : List Char) : ∀ l ∈ (handleInputFrame b d).1, WFLine l := by
  unfold handleInputFrame
  rcases h : (splitLines (b ++ d)).getLast? with _ | last
  all_goals try dsimp only
  · simp
  · split_ifs with hnl
    · intro l hl
      have hdec : (splitLines (b ++ d)).dropLast ++ [last] = splitLines (b ++ d) :=
        List.dropLast_append_getLast? last (by simp [h])
      rw [← hdec] at hl
      rcases List.mem_append.mp hl with hm | hm
      · exact ⟨splitLines_dropLast_nl _ l hm,
          (splitLines_mem _ l (by rw [← hdec]; exact List.mem_append_left _ hm)).2⟩
      · simp at hm
        subst hm
        exact ⟨hnl, (splitLines_mem (b ++ d) l (List.mem_of_mem_getLast?
          (show l ∈ (splitLines (b ++ d)).getLast? by simp [h]))).2⟩
    · intro l hl
      exact ⟨splitLines_dropLast_nl _ l hl,
        (splitLines_mem _ l (List.mem_of_mem_dropLast hl)).2⟩

theorem frame_buf_no_nl (b d : List Char) : '\n' ∉ (handleInputFrame b d).2 := by
  unfold handleInputFrame
  rcases h : (splitLines (b ++ d)).getLast? with _ | last
  all_goals try dsimp only
  · have hnil : splitLines (b ++ d) = [] := List.getLast?_eq_none_iff.mp h
    have : b ++ d = [] := (splitLines_eq_nil_iff _).mp hnil
    simp [this]
  · split_ifs with hnl
    · simp
    · have hmem : last ∈ splitLines (b ++ d) := List.mem_of_mem_getLast? (by simp [h])
      have hprops := splitLines_mem _ last hmem
      intro hm
      have hdec : last.dropLast ++ [last.getLast hprops.1] = last :=
        List.dropLast_append_getLast hprops.1
      rw [← hdec] at hm
      rcases List.mem_append.mp hm with hm | hm
      · exact hprops.2 hm
      · simp at hm
        rw [List.getLast?_eq_getLast last hprops.1] at hnl
        exact hnl (by rw [← hm])

theorem append_nl_unique :
    ∀ (m m' x y : List Char), '\n' ∉ m → '\n' ∉ m' →
      m ++ '\n' :: x = m' ++ '\n' :: y → m = m' ∧ x = y
  | [], [], x, y, _, _, h => by simpa using h
  | [], c :: ms, x, y, _, hm', h => by
      simp only [List.nil_append, List.cons_append, List.cons.injEq] at h
      exact absurd (by simp [← h.1]) hm'
  | c :: ms, [], x, y, hm, _, h => by
      simp only [List.nil_append, List.cons_append, List.cons.injEq] at h
      exact absurd (by simp [h.1]) hm
  | c :: ms, c' :: ms', x, y, hm, hm', h => by
      simp only [List.cons_append, List.cons.injEq] at h
      have ih := append_nl_unique ms ms' x y (fun hx => hm (by simp [hx]))
        (fun hx => hm' (by simp [hx])) h.2
      exact ⟨by rw [h.1, ih.1], ih.2⟩

theorem wfline_decomp {l : List Char} (h : WFLine l) :
    ∃ m, l = m ++ ['\n'] ∧ '\n' ∉ m := by
  refine ⟨l.dropLast, ?_, h.2⟩
  exact (List.dropLast_append_getLast? '\n' (by simp [h.1])).symm

theorem wf_decomp_unique :
    ∀ (ls ls' : List (List Char)) (b b' : List Char),
      (∀ l ∈ ls, WFLine l) → (∀ l ∈ ls', WFLine l) → '\n' ∉ b → '\n' ∉ b' →
      ls.flatten ++ b = ls'.flatten ++ b' → ls = ls' ∧ b = b'
  | [], [], b, b', _, _, _, _, h => by simpa using h
  | [], l' :: rest', b, b', _, hw', hb, _, h => by
      exfalso
      have hwl := hw' l' (by simp)
      have : '\n' ∈ b := by
        rw [show b = ([] : List (List Char)).flatten ++ b from by simp, h]
        simp only [List.flatten_cons, List.append_assoc, List.mem_append]
        exact Or.inl (List.mem_of_mem_getLast? (by simp [hwl.1]))
      exact hb this
  | l :: rest, [], b, b', hw, _, _, hb', h => by
      exfalso
      have hwl := hw l (by simp)
      have : '\n' ∈ b' := by
        rw [show b' = ([] : List (List Char)).flatten ++ b' from by simp, ← h]
        simp only [List.flatten_cons, List.append_assoc, List.mem_append]
        exact Or.inl (List.mem_of_mem_getLast? (by simp [hwl.1]))
      exact hb' this
  | l :: rest, l' :: rest', b, b', hw, hw', hb, hb', h => by
      obtain ⟨m, rfl, hm⟩ := wfline_decomp (hw l (by simp))
      obtain ⟨m', rfl, hm'⟩ := wfline_decomp (hw' l' (by simp))
      simp only [List.flatten_cons, List.append_assoc, List.cons_append,
        List.nil_append] at h
      have hheads := append_nl_unique m m' _ _ hm hm' (by simpa using h)
      obtain ⟨rfl, htails⟩ := hheads
      have ih := wf_decomp_unique rest rest' b b'
        (fun x hx => hw x (by simp [hx])) (fun x hx => hw' x (by simp [hx]))
        hb hb' htails
      exact ⟨by rw [ih.1], ih.2⟩

theorem feedAll_inv :
    ∀ (chunks : List (List Char)) (b : List Char), '\n' ∉ b →
      (feedAll b chunks).1.flatten ++ (feedAll b chunks).2 = b ++ chunks.flatten
      ∧ (∀ l ∈ (feedAll b chunks).1, WFLine l) ∧ '\n' ∉ (feedAll b chunks).2
  | [], b, hb => by simp [feedAll, hb]
  | chunk :: rest, b, hb => by
      have h1 := frame_flatten b chunk
      have h2 := frame_lines_wf b chunk
      have h3 := frame_buf_no_nl b chunk
      have ih := feedAll_inv rest (handleInputFrame b chunk).2 h3
      refine ⟨?_, ?_, ih.2.2⟩
      · simp only [feedAll, List.flatten_append, List.append_assoc, List.flatten_cons]
        rw [ih.1, ← List.append_assoc, h1, List.append_assoc]
      · intro l hl
        simp only [feedAll, List.mem_append] at hl
        rcases hl with hl | hl
        · exact h2 l hl
        · exact ih.2.1 l hl

/-- C4: feeding a character sequence to the framer split across arbitrary
chunk boundaries yields exactly the same complete lines and the same
retained buffer as feeding it in one chunk; every emitted line is
newline-terminated, the retained trailing fragment contains no newline
(so it produced no line), and no data is lost. -/
theorem c4_framer_chunk_invariance (chunks : List (List Char)) :
    feedAll [] chunks = handleInputFrame [] chunks.flatten
    ∧ (∀ l ∈ (feedAll [] chunks).1, l.getLast? = some '\n')
    ∧ '\n' ∉ (feedAll [] chunks).2
    ∧ (feedAll [] chunks).1.flatten ++ (feedAll [] chunks).2 = chunks.flatten := by
  have hA := feedAll_inv chunks [] (by simp)
  have hB1 := frame_flatten [] chunks.flatten
  have hB2 := frame_lines_wf [] chunks.flatten
  have hB3 := frame_buf_no_nl [] chunks.flatten
  have hflat : (feedAll [] chunks).1.flatten ++ (feedAll [] chunks).2 = chunks.flatten := by
    simpa using hA.1
  have huniq := wf_decomp_unique (feedAll [] chunks).1 (handleInputFrame [] chunks.flatten).1
    (feedAll [] chunks).2 (handleInputFrame [] chunks.flatten).2
    hA.2.1 hB2 hA.2.2 hB3 (by rw [hflat, hB1]; simp)
  refine ⟨?_, fun l hl => (hA.2.1 l hl).1, hA.2.2, hflat⟩
  exact Prod.ext huniq.1 huniq.2

/-- A JS value as seen by property/index access: a JSON value or `undefined`. -/
inductive JSVal where
  | jsUndefined : JSVal
  | val (v : JValue) : JSVal
deriving DecidableEq, Repr

/-- Modelled from the spec: a Pending operation handle (`cancelable-or-plain
operation handle`); `cancelable` models `instanceof CancelablePromise`,
`tag` identifies the underlying operation. -/
structure PendingHandle where
  tag : Nat
  cancelable : Bool
deriving DecidableEq, Repr

/-- Modelled from the spec: the outcome of invoking a capability-provider
operation — an Immediate value, a Pending handle, or a synchronous fault. -/
inductive InvokeResult where
  | immediate (v : JValue)
  | promise (h : PendingHandle)
  | throws

/-- Modelled from the spec: the capability provider (`Agent`), a table of
named operations (name-based dynamic dispatch). -/
structure Agent where
  funcs : JStr → Option (List JSVal → InvokeResult)

/-- The mutable state of a `StdIO` instance that the claims concern:
the bound agent (line 52) and `ongoingRequests` (line 50, a JS object,
so keyed by strings). -/
structure IOState where
  agent : Option Agent
  ongoing : List (JStr × PendingHandle)

/-- JS property lookup on an object literal (last duplicate key wins,
as with objects produced by `JSON.parse`). -/
def objLookup (fs : List (JStr × JValue)) (k : JStr) : Option JValue :=
  match fs.reverse.find? (fun p => decide (p.1 = k)) with
  | some p => some p.2
  | none => none

mutual

/-- JS string coercion of a JSON value (used for object property keys). -/
def jsKey : JValue → JStr
  | .null => "null".toList
  | .bool true => "true".toList
  | .bool false => "false".toList
  | .num n => intChars n
  | .str s => s
  | .arr l => arrKey l
  | .obj _ => "[object Object]".toList

/-- JS `Array.prototype.toString`: elements joined by commas, null rendered
as the empty string. -/
def arrKey : List JValue → JStr
  | [] => []
  | [x] =>
      match x with
      | .null => []
      | _ => jsKey x
  | x :: y :: xs =>
      (match x with
       | .null => []
       | _ => jsKey x) ++ ',' :: arrKey (y :: xs)

end

/-- JS string coercion of a possibly-undefined value used as a property key
(`obj[undefined]` reads property `"undefined"`). -/
def jsKeyVal : JSVal → JStr
  | .jsUndefined => "undefined".toList
  | .val v => jsKey v

/-- JS index access `v[i]` for a numeric literal index: throws (TypeError)
on null, indexes arrays and strings, reads the numeric-string property of
objects, and gives undefined on other primitives. -/
def jsIndexNat : JValue → Nat → Except Unit JSVal
  | .null, _ => .error ()
  | .bool _, _ => .ok .jsUndefined
  | .num _, _ => .ok .jsUndefined
  | .str s, i => if h : i < s.length then .ok (.val (.str [s.get ⟨i, h⟩])) else .ok .jsUndefined
  | .arr l, i =>
      match l[i]? with
      | some v => .ok (.val v)
      | none => .ok .jsUndefined
  | .obj fs, i =>
      match objLookup fs (natChars i) with
      | some v => .ok (.val v)
      | none => .ok .jsUndefined

/-- JS named property access `x.name` (for the names the code reads:
`func`, `args`): throws on undefined and null, looks up object fields,
undefined on the rest. -/
def jsProp : JSVal → JStr → Except Unit JSVal
  | .jsUndefined, _ => .error ()
  | .val .null, _ => .error ()
  | .val (.obj fs), k =>
      match objLookup fs k with
      | some v => .ok (.val v)
      | none => .ok .jsUndefined
  | .val _, _ => .ok .jsUndefined

/-- JS `ToLength` of an optional property value (clamped to naturals). -/
def toLengthJ : Option JValue → Nat
  | some (.num n) => n.toNat
  | some (.bool true) => 1
  | _ => 0

/-- `Function.prototype.apply(thisArg, argsArray)`: null/undefined mean no
arguments, arrays pass their elements, other primitives raise TypeError,
and array-like objects are read through their `length` property. -/
def applyArgs : JSVal → Except Unit (List JSVal)
  | .jsUndefined => .ok []
  | .val .null => .ok []
  | .val (.arr l) => .ok (l.map JSVal.val)
  | .val (.obj fs) =>
      .ok ((List.range (toLengthJ (objLookup fs ("length".toList)))).map (fun i =>
        match objLookup fs (natChars i) with
        | some v => JSVal.val v
        | none => JSVal.jsUndefined))
  | .val _ => .error ()

/-- Lookup in the `ongoingRequests` object. -/
def lookupKey : List (JStr × PendingHandle) → JStr → Option PendingHandle
  | [], _ => none
  | (k', h) :: t, k => if k' = k then some h else lookupKey t k

/-- JS object property assignment: overwrite in place, or append. -/
def setKey : List (JStr × PendingHandle) → JStr → PendingHandle →
    List (JStr × PendingHandle)
  | [], k, h => [(k, h)]
  | (k', h') :: t, k, h => if k' = k then (k, h) :: t else (k', h') :: setKey t k h

/-- JS `delete obj[k]`. -/
def eraseKey : List (JStr × PendingHandle) → JStr → List (JStr × PendingHandle)
  | [], _ => []
  | (k', h') :: t, k => if k' = k then t else (k', h') :: eraseKey t k

/-- The registry has at most one entry per key. -/
def nodupKeys (reg : List (JStr × PendingHandle)) : Prop := (reg.map Prod.fst).Nodup

instance (reg : List (JStr × PendingHandle)) : Decidable (nodupKeys reg) := by
  unfold nodupKeys
  infer_instance

/-- Embeds `StdIO.cancelRequest` lines 117–125, after the target id has been
coerced to a registry key: no entry → false; otherwise invoke the handle's
cancel when it is a `CancelablePromise` (recorded as the handle's tag in the
returned trace), delete the entry, return true. -/
def cancelCore (st : IOState) (key : JStr) : Bool × IOState × List Nat :=
  match lookupKey st.ongoing key with
  | none => (false, st, [])
  | some h =>
      (true, { st with ongoing := eraseKey st.ongoing key },
        if h.cancelable then [h.tag] else [])

/-- Embeds `StdIO.cancelRequest` line 117's access `request[1].args[0]`
(each step can throw, propagating to `handleRequest`'s catch) followed by
the registry lookup/cancel/delete of lines 117–125. -/
def cancelRequestM (st : IOState) (req : JValue) :
    Except Unit (Bool × IOState × List Nat) :=
  match jsIndexNat req 1 with
  | .error e => .error e
  | .ok r1 =>
      match jsProp r1 ("args".toList) with
      | .error e => .error e
      | .ok .jsUndefined => .error ()
      | .ok (.val v) =>
          match jsIndexNat v 0 with
          | .error e => .error e
          | .ok t => .ok (cancelCore st (jsKeyVal t))

/-- How a dispatch pass ends: with a ready response, or suspended at the
`await` of line 103 after inserting a registry entry at line 102. -/
inductive StartOutcome where
  | done (resp : JSVal × JSVal)
  | suspended (respId : JSVal) (key : JStr) (h : PendingHandle)
deriving DecidableEq, Repr

/-- Embeds the `try` block of `StdIO.handleRequest` (lines 86–108) up to the
`await` on line 103.  An `Except.error i` is a thrown error caught at line
109 with the response id mutated so far (`response = [0, null]` initially,
`response[0] = request[0]` at line 90).  Synchronous completions yield
`.done`; a Pending result inserts the registry entry (line 102, keyed by
the JS string coercion of `request[0]`) and yields `.suspended`.  The third
component records cancel invocations performed by a `cancelRequest` branch. -/
def tryDispatch (st : IOState) (req : JValue) :
    Except JSVal (StartOutcome × IOState × List Nat) :=
  match st.agent with
  | none => .error (.val (.num 0))
  | some ag =>
      match jsIndexNat req 0 with
      | .error _ => .error (.val (.num 0))
      | .ok id0 =>
          match jsIndexNat req 1 with
          | .error _ => .error id0
          | .ok r1 =>
              match jsProp r1 ("func".toList) with
              | .error _ => .error id0
              | .ok fn =>
                  if fn = JSVal.val (.str ("cancelRequest".toList)) then
                    match cancelRequestM st req with
                    | .error _ => .error id0
                    | .ok (b, st', tr) => .ok (.done (id0, .val (.bool b)), st', tr)
                  else
                    match ag.funcs (jsKeyVal fn) with
                    | none => .error id0
                    | some f =>
                        match jsProp r1 ("args".toList) with
                        | .error _ => .error id0
                        | .ok argsV =>
                            match applyArgs argsV with
                            | .error _ => .error id0
                            | .ok args =>
                                match f args with
                                | .throws => .error id0
                                | .immediate v => .ok (.done (id0, .val v), st, [])
                                | .promise h =>
                                    .ok (.suspended id0 (jsKeyVal id0) h,
                                      { st with
                                        ongoing := setKey st.ongoing (jsKeyVal id0) h }, [])

/-- Embeds `StdIO.handleRequest` lines 84–113 up to its first suspension
point: the catch (line 109) turns any thrown error into a completed
dispatch whose payload is still null, and the finally (line 112) returns
the response. -/
def dispatchStart (st : IOState) (req : JValue) : StartOutcome × IOState × List Nat :=
  match tryDispatch st req with
  | .ok r => r
  | .error i => (.done (i, .val .null), st, [])

/-- Embeds the resumption of `StdIO.handleRequest` at line 103: the awaited
pending operation either resolves (`Except.ok v` — the entry is deleted at
line 104 and `v` becomes the payload) or rejects (`Except.error` — control
jumps to the catch at line 109, the delete at line 104 is skipped, and the
finally returns the response with its payload still null). -/
def dispatchResume (st : IOState) (respId : JSVal) (key : JStr)
    (res : Except Unit JValue) : (JSVal × JSVal) × IOState :=
  match res with
  | .ok v => ((respId, .val v), { st with ongoing := eraseKey st.ongoing key })
  | .error _ => ((respId, .val .null), st)

/-- `JSON.stringify` of a response array component: `undefined` inside an
array stringifies as `null`. -/
def jsvalToJson : JSVal → JValue
  | .jsUndefined => .null
  | .val v => v

/-- Embeds `StdIO.sendResponse` line 129 without the trailing newline:
`JSON.stringify(response)` for the two-element response array. -/
def encodeResponse (r : JSVal × JSVal) : List Char :=
  serialize (.arr [jsvalToJson r.1, jsvalToJson r.2])

/-- The full wire line written by `StdIO.sendResponse` (line 129). -/
def sendLine (r : JSVal × JSVal) : List Char := encodeResponse r ++ ['\n']

/-- Embeds the loop body of `StdIO.handleInput` lines 68–81 for one complete
line: `JSON.parse` failure skips the line (no response); otherwise the
request is dispatched.  Returns (immediate responses, suspended dispatches,
new state, cancel-invocation trace). -/
def processLine (st : IOState) (line : List Char) :
    List (JSVal × JSVal) × List (JSVal × JStr × PendingHandle) × IOState × List Nat :=
  match parseJson line with
  | none => ([], [], st, [])
  | some req =>
      match dispatchStart st req with
      | (.done r, st', tr) => ([r], [], st', tr)
      | (.suspended i k h, st', tr) => ([], [(i, k, h)], st', tr)

/-- The `for` loop of `StdIO.handleInput` over the complete lines of one
chunk: each line is processed in order, dispatch setup happening before the
next line is examined. -/
def processLines (st : IOState) : List (List Char) →
    List (JSVal × JSVal) × List (JSVal × JStr × PendingHandle) × IOState × List Nat
  | [] => ([], [], st, [])
  | l :: ls =>
      let p := processLine st l
      let q := processLines p.2.2.1 ls
      (p.1 ++ q.1, p.2.1 ++ q.2.1, q.2.2.1, p.2.2.2 ++ q.2.2.2)

/-- Embeds `StdIO.bind` (lines 132–139): store the agent and subscribe to
its events. -/
def bindAgent (st : IOState) (a : Agent) : IOState := { st with agent := some a }

/-- Embeds the event handler installed by `StdIO.bind` (line 136): every
event is forwarded as `sendResponse([0, event])`; no other state changes. -/
def emitEvent (st : IOState) (e : JValue) : (JSVal × JSVal) × IOState :=
  ((.val (.num 0), .val e), st)

/-- Example capability provider: `ping` answers immediately, `work` returns
a plain (non-cancelable) pending handle, `job` a cancelable one. -/
def exAgent : Agent := ⟨fun k =>
  if k = "ping".toList then some (fun _ => .immediate (.str ("pong".toList)))
  else if k = "work".toList then some (fun _ => .promise ⟨1, false⟩)
  else if k = "job".toList then some (fun _ => .promise ⟨2, true⟩)
  else none⟩

def exStBound : IOState := ⟨some exAgent, []⟩

def exStUnbound : IOState := ⟨none, []⟩

def exWorkReq : JValue :=
  .arr [.num 5, .obj [("func".toList, .str ("work".toList)), ("args".toList, .arr [])]]

theorem lookupKey_eq_none_of_not_mem :
    ∀ (reg : List (JStr × PendingHandle)) (k : JStr),
      k ∉ reg.map Prod.fst → lookupKey reg k = none
  | [], _, _ => rfl
  | (k', h') :: t, k, hm => by
      have hk : k' ∈ ((k', h') :: t).map Prod.fst := by
        rw [List.map_cons]
        exact List.mem_cons_self _ _
      have hne : k' ≠ k := fun he => hm (he ▸ hk)
      simp only [lookupKey, if_neg hne]
      refine lookupKey_eq_none_of_not_mem t k (fun hx => hm ?_)
      simp only [List.map_cons, List.mem_cons]
      exact Or.inr hx

theorem eraseKey_keys_subset :
    ∀ (reg : List (JStr × PendingHandle)) (k x : JStr),
      x ∈ (eraseKey reg k).map Prod.fst → x ∈ reg.map Prod.fst
  | [], _, _, h => by simp [eraseKey] at h
  | (k', h') :: t, k, x, h => by
      simp only [eraseKey] at h
      split_ifs at h with he
      · exact List.mem_cons_of_mem _ h
      · simp only [List.map_cons, List.mem_cons] at h ⊢
        rcases h with h | h
        · exact Or.inl h
        · exact Or.inr (eraseKey_keys_subset t k x h)

theorem nodupKeys_eraseKey :
    ∀ (reg : List (JStr × PendingHandle)) (k : JStr),
      nodupKeys reg → nodupKeys (eraseKey reg k)
  | [], _, _ => by simp [eraseKey, nodupKeys]
  | (k', h') :: t, k, hnd => by
      simp only [nodupKeys, List.map_cons, List.nodup_cons] at hnd
      simp only [eraseKey]
      split_ifs with he
      · exact hnd.2
      · simp only [nodupKeys, List.map_cons, List.nodup_cons]
        exact ⟨fun hx => hnd.1 (eraseKey_keys_subset t k k' hx),
          nodupKeys_eraseKey t k hnd.2⟩

theorem setKey_keys_subset :
    ∀ (reg : List (JStr × PendingHandle)) (k : JStr) (h : PendingHandle) (x : JStr),
      x ∈ (setKey reg k h).map Prod.fst → x ∈ reg.map Prod.fst ∨ x = k
  | [], k, h, x, hm => by
      simp [setKey] at hm
      exact Or.inr hm
  | (k', h') :: t, k, h, x, hm => by
      simp only [setKey] at hm
      split_ifs at hm with he
      · simp only [List.map_cons, List.mem_cons] at hm ⊢
        rcases hm with h | h
        · exact Or.inr h
        · exact Or.inl (Or.inr h)
      · simp only [List.map_cons, List.mem_cons] at hm ⊢
        rcases hm with h | h
        · exact Or.inl (Or.inl h)
        · rcases setKey_keys_subset t k _ x h with h | h
          · exact Or.inl (Or.inr h)
          · exact Or.inr h

theorem nodupKeys_setKey :
    ∀ (reg : List (JStr × PendingHandle)) (k : JStr) (h : PendingHandle),
      nodupKeys reg → nodupKeys (setKey reg k h)
  | [], k, h, _ => by simp [setKey, nodupKeys]
  | (k', h') :: t, k, h, hnd => by
      simp only [nodupKeys, List.map_cons, List.nodup_cons] at hnd
      simp only [setKey]
      split_ifs with he
      · subst he
        simp only [nodupKeys, List.map_cons, List.nodup_cons]
        exact hnd
      · simp only [nodupKeys, List.map_cons, List.nodup_cons]
        refine ⟨fun hx => ?_, nodupKeys_setKey t k h hnd.2⟩
        rcases setKey_keys_subset t k h k' hx with hx | hx
        · exact hnd.1 hx
        · exact he hx

theorem lookupKey_eraseKey_self :
    ∀ (reg : List (JStr × PendingHandle)) (k : JStr),
      nodupKeys reg → lookupKey (eraseKey reg k) k = none
  | [], _, _ => rfl
  | (k', h') :: t, k, hnd => by
      simp only [nodupKeys, List.map_cons, List.nodup_cons] at hnd
      simp only [eraseKey]
      split_ifs with he
      · subst he
        exact lookupKey_eq_none_of_not_mem t k' hnd.1
      · simp only [lookupKey, if_neg he]
        exact lookupKey_eraseKey_self t k hnd.2

theorem eraseKey_of_absent :
    ∀ (reg : List (JStr × PendingHandle)) (k : JStr),
      lookupKey reg k = none → eraseKey reg k = reg
  | [], _, _ => rfl
  | (k', h') :: t, k, habs => by
      simp only [lookupKey] at habs
      split_ifs at habs with he
      simp only [eraseKey, if_neg he]
      rw [eraseKey_of_absent t k habs]

theorem cancelCore_ongoing (st : IOState) (key : JStr) :
    (cancelCore st key).2.1.ongoing = st.ongoing
    ∨ (cancelCore st key).2.1.ongoing = eraseKey st.ongoing key := by
  unfold cancelCore
  rcases lookupKey st.ongoing key with _ | h
  · exact Or.inl rfl
  · exact Or.inr rfl

theorem cancelRequestM_ongoing (st : IOState) (req : JValue) (b : Bool)
    (st2 : IOState) (tr : List Nat) (h : cancelRequestM st req = .ok (b, st2, tr)) :
    st2.ongoing = st.ongoing ∨ ∃ k, st2.ongoing = eraseKey st.ongoing k := by
  unfold cancelRequestM at h
  repeat' split at h
  all_goals try exact Except.noConfusion h
  rename_i t heqt
  injection h with h1
  have h2 : (cancelCore st (jsKeyVal t)).2.1 = st2 := congrArg (fun p => p.2.1) h1
  rw [← h2]
  rcases cancelCore_ongoing st (jsKeyVal t) with hc | hc
  · exact Or.inl hc
  · exact Or.inr ⟨jsKeyVal t, hc⟩

theorem tryDispatch_ongoing (st : IOState) (req : JValue) (o : StartOutcome)
    (st' : IOState) (tr : List Nat) (h : tryDispatch st req = .ok (o, st', tr)) :
    st'.ongoing = st.ongoing ∨ (∃ k, st'.ongoing = eraseKey st.ongoing k)
    ∨ ∃ k hh, st'.ongoing = setKey st.ongoing k hh := by
  unfold tryDispatch at h
  repeat' split at h
  all_goals try exact Except.noConfusion h
  · rename_i heqc
    injection h with h1
    have h2 := congrArg (fun p => p.2.1) h1
    dsimp only at h2
    rcases cancelRequestM_ongoing st req _ _ _ heqc with hc | ⟨k, hc⟩
    · rw [← h2]
      exact Or.inl hc
    · rw [← h2]
      exact Or.inr (Or.inl ⟨k, hc⟩)
  · injection h with h1
    have h2 := congrArg (fun p => p.2.1) h1
    dsimp only at h2
    rw [← h2]
    exact Or.inl rfl
  · injection h with h1
    have h2 := congrArg (fun p => p.2.1) h1
    dsimp only at h2
    exact Or.inr (Or.inr ⟨_, _, by rw [← h2]⟩)

/-- C1: while no capability provider is bound, every dispatched request —
whatever id and function it carries — completes immediately with a Response
whose id is 0 (not the request's id) and whose payload is null, leaving the
state untouched; the emitted wire line is `[0,null]`. -/
theorem c1_unbound_response (st : IOState) (req : JValue) (h : st.agent = none) :
    dispatchStart st req = (.done (.val (.num 0), .val .null), st, [])
    ∧ encodeResponse (.val (.num 0), .val .null) = "[0,null]".toList := by
  constructor
  · unfold dispatchStart tryDispatch
    rw [h]
  · decide

/-- Witness for C1 at a concrete unbound state and request. -/
theorem c1_unbound_response_witness :
    dispatchStart exStUnbound (.num 42) = (.done (.val (.num 0), .val .null), exStUnbound, [])
    ∧ encodeResponse (.val (.num 0), .val .null) = "[0,null]".toList :=
  c1_unbound_response exStUnbound (.num 42) rfl

/-- C2 is refuted on the code: dispatch a request whose operation is
classified Pending (the entry for key "5" is inserted before suspending),
then let the awaited operation fault.  The dispatch completes and produces
its Response `[5,null]`, yet the registry entry for the request's id is
still present afterwards — the delete on line 104 is skipped when the await
rejects, so the entry is not removed on this completion. -/
theorem c2_counterexample :
    (dispatchStart exStBound exWorkReq).1
      = .suspended (.val (.num 5)) ("5".toList) ⟨1, false⟩
    ∧ (dispatchResume (dispatchStart exStBound exWorkReq).2.1 (.val (.num 5)) ("5".toList)
        (.error ())).1 = (.val (.num 5), .val .null)
    ∧ lookupKey (dispatchResume (dispatchStart exStBound exWorkReq).2.1 (.val (.num 5))
        ("5".toList) (.error ())).2.ongoing ("5".toList) = some ⟨1, false⟩ := by
  refine ⟨?_, ?_, ?_⟩ <;> decide

/-- C2 (amended): at most one RegistryEntry exists per id at any time (key
uniqueness is preserved by every dispatch step), and an entry is removed at
most once — on natural successful completion or on cancellation, never both
(removing under an absent key is a no-op).  When a pending operation
resolves successfully, no entry remains for its key; but when the awaited
operation faults, the dispatch still produces its Response while the state
— including the registry entry — is left untouched. -/
theorem c2_registry_lifecycle (st : IOState) (req : JValue) (i : JSVal) (k : JStr)
    (v : JValue) (hnd : nodupKeys st.ongoing) :
    nodupKeys (dispatchStart st req).2.1.ongoing
    ∧ nodupKeys (dispatchResume st i k (.ok v)).2.ongoing
    ∧ lookupKey (dispatchResume st i k (.ok v)).2.ongoing k = none
    ∧ (dispatchResume st i k (.error ())).2 = st
    ∧ (lookupKey st.ongoing k = none → eraseKey st.ongoing k = st.ongoing) := by
  refine ⟨?_, ?_, ?_, rfl, eraseKey_of_absent st.ongoing k⟩
  · unfold dispatchStart
    rcases htd : tryDispatch st req with e | ⟨o, st', tr⟩
    · exact hnd
    · rcases tryDispatch_ongoing st req o st' tr htd with hc | ⟨k2, hc⟩ | ⟨k2, h2, hc⟩
      · simpa [hc] using hnd
      · rw [hc]
        exact nodupKeys_eraseKey _ _ hnd
      · rw [hc]
        exact nodupKeys_setKey _ _ _ hnd
  · exact nodupKeys_eraseKey _ _ hnd
  · exact lookupKey_eraseKey_self _ _ hnd

/-- Witness for C2 (amended) at a concrete state with one tracked entry. -/
theorem c2_registry_lifecycle_witness :
    nodupKeys (dispatchStart ⟨some exAgent, [("5".toList, ⟨1, false⟩)]⟩ exWorkReq).2.1.ongoing
    ∧ nodupKeys (dispatchResume ⟨some exAgent, [("5".toList, ⟨1, false⟩)]⟩ (.val (.num 5))
        ("5".toList) (.ok (.num 9))).2.ongoing
    ∧ lookupKey (dispatchResume ⟨some exAgent, [("5".toList, ⟨1, false⟩)]⟩ (.val (.num 5))
        ("5".toList) (.ok (.num 9))).2.ongoing ("5".toList) = none
    ∧ (dispatchResume ⟨some exAgent, [("5".toList, ⟨1, false⟩)]⟩ (.val (.num 5))
        ("5".toList) (.error ())).2 = ⟨some exAgent, [("5".toList, ⟨1, false⟩)]⟩
    ∧ (lookupKey ([("5".toList, ⟨1, false⟩)] : List (JStr × PendingHandle)) ("5".toList) = none →
        eraseKey ([("5".toList, ⟨1, false⟩)] : List (JStr × PendingHandle)) ("5".toList)
          = [("5".toList, ⟨1, false⟩)]) :=
  c2_registry_lifecycle ⟨some exAgent, [("5".toList, ⟨1, false⟩)]⟩ exWorkReq (.val (.num 5))
    ("5".toList) (.num 9) (by decide)

/-- C6: cancelling a target id with a tracked registry entry removes the
entry (a later lookup finds nothing) and returns true; the handle's cancel
action is invoked exactly once iff the handle is cancelable, and for a
non-cancelable handle no cancel action reaches the underlying operation. -/
theorem c6_cancel_tracked (st : IOState) (key : JStr) (h : PendingHandle)
    (hnd : nodupKeys st.ongoing) (hhit : lookupKey st.ongoing key = some h) :
    cancelCore st key
      = (true, { st with ongoing := eraseKey st.ongoing key },
          if h.cancelable then [h.tag] else [])
    ∧ lookupKey (cancelCore st key).2.1.ongoing key = none
    ∧ (h.cancelable = true → (cancelCore st key).2.2 = [h.tag])
    ∧ (h.cancelable = false → (cancelCore st key).2.2 = []) := by
  have hc : cancelCore st key
      = (true, { st with ongoing := eraseKey st.ongoing key },
          if h.cancelable then [h.tag] else []) := by
    unfold cancelCore
    rw [hhit]
  refine ⟨hc, ?_, ?_, ?_⟩
  · rw [hc]
    exact lookupKey_eraseKey_self _ _ hnd
  · intro hcan
    rw [hc]
    simp [hcan]
  · intro hcan
    rw [hc]
    simp [hcan]

/-- Witness for C6, once with a cancelable handle and once without. -/
theorem c6_cancel_tracked_witness :
    (cancelCore ⟨none, [("3".toList, ⟨2, true⟩)]⟩ ("3".toList)
      = (true, { agent := none, ongoing := [] },
          if (true : Bool) then [2] else [])
    ∧ lookupKey (cancelCore ⟨none, [("3".toList, ⟨2, true⟩)]⟩ ("3".toList)).2.1.ongoing
        ("3".toList) = none
    ∧ ((true : Bool) = true →
        (cancelCore ⟨none, [("3".toList, ⟨2, true⟩)]⟩ ("3".toList)).2.2 = [2])
    ∧ ((true : Bool) = false →
        (cancelCore ⟨none, [("3".toList, ⟨2, true⟩)]⟩ ("3".toList)).2.2 = []))
    ∧ ((false : Bool) = false →
        (cancelCore ⟨none, [("3".toList, ⟨1, false⟩)]⟩ ("3".toList)).2.2 = []) :=
  ⟨c6_cancel_tracked ⟨none, [("3".toList, ⟨2, true⟩)]⟩ ("3".toList) ⟨2, true⟩
      (by decide) (by decide),
   (c6_cancel_tracked ⟨none, [("3".toList, ⟨1, false⟩)]⟩ ("3".toList) ⟨1, false⟩
      (by decide) (by decide)).2.2.2⟩

theorem dispatch_cancel_wire (st : IOState) (ag : Agent) (i t : Int)
    (hag : st.agent = some ag) :
    dispatchStart st (.arr [.num i, .obj [("func".toList, .str ("cancelRequest".toList)),
        ("args".toList, .arr [.num t])]])
      = (.done (.val (.num i), .val (.bool (cancelCore st (intChars t)).1)),
         (cancelCore st (intChars t)).2.1, (cancelCore st (intChars t)).2.2) := by
  rcases hcc : cancelCore st (intChars t) with ⟨b, st2, tr⟩
  have h1 : jsIndexNat (.arr [.num i, .obj [("func".toList, .str ("cancelRequest".toList)),
      ("args".toList, .arr [.num t])]]) 0 = .ok (.val (.num i)) := rfl
  have h2 : jsIndexNat (.arr [.num i, .obj [("func".toList, .str ("cancelRequest".toList)),
      ("args".toList, .arr [.num t])]]) 1
      = .ok (.val (.obj [("func".toList, .str ("cancelRequest".toList)),
          ("args".toList, .arr [.num t])])) := rfl
  have h3 : jsProp (.val (.obj [("func".toList, .str ("cancelRequest".toList)),
      ("args".toList, .arr [.num t])])) ("func".toList)
      = .ok (.val (.str ("cancelRequest".toList))) := rfl
  have h4 : jsProp (.val (.obj [("func".toList, .str ("cancelRequest".toList)),
      ("args".toList, .arr [.num t])])) ("args".toList)
      = .ok (.val (.arr [.num t])) := rfl
  have h5 : jsIndexNat (.arr [.num t]) 0 = .ok (.val (.num t)) := rfl
  have h6 : jsKeyVal (.val (.num t)) = intChars t := rfl
  unfold dispatchStart tryDispatch cancelRequestM
  rw [hag]
  simp only [h1, h2, h3, h4, h5, h6, hcc]
  simp

/-- C5: cancelling a target id with no tracked registry entry returns false
and leaves the state (in particular the registry) unchanged; at the wire
level, dispatching `[i, cancelRequest(t)]` for such a target yields exactly
the response `[i,false]` with the state unchanged and no cancel invoked. -/
theorem c5_cancel_unknown (st : IOState) (ag : Agent) (i t : Int)
    (hag : st.agent = some ag)
    (hmiss : lookupKey st.ongoing (intChars t) = none) :
    cancelCore st (intChars t) = (false, st, [])
    ∧ dispatchStart st (.arr [.num i, .obj [("func".toList, .str ("cancelRequest".toList)),
        ("args".toList, .arr [.num t])]])
      = (.done (.val (.num i), .val (.bool false)), st, [])
    ∧ encodeResponse (.val (.num i), .val (.bool false))
      = '[' :: (intChars i ++ ",false]".toList) := by
  have hcc : cancelCore st (intChars t) = (false, st, []) := by
    unfold cancelCore
    rw [hmiss]
  refine ⟨hcc, ?_, ?_⟩
  · rw [dispatch_cancel_wire st ag i t hag, hcc]
  · have hsuf : (",false]".toList : List Char) = ',' :: ['f', 'a', 'l', 's', 'e', ']'] := rfl
    rw [hsuf]
    simp [encodeResponse, serialize, serializeItems, jsvalToJson]

/-- Witness for C5: the spec scenario — cancel of id 3 under request id 7
with an empty registry yields the wire line `[7,false]`. -/
theorem c5_cancel_unknown_witness :
    cancelCore exStBound (intChars 3) = (false, exStBound, [])
    ∧ dispatchStart exStBound (.arr [.num 7, .obj [("func".toList,
        .str ("cancelRequest".toList)), ("args".toList, .arr [.num 3])]])
      = (.done (.val (.num 7), .val (.bool false)), exStBound, [])
    ∧ encodeResponse (.val (.num 7), .val (.bool false))
      = '[' :: (intChars 7 ++ ",false]".toList) :=
  c5_cancel_unknown exStBound exAgent 7 3 rfl (by decide)

/-- C3: dispatch produces exactly one response per decoded request and no
fault escapes: a thrown error inside the try block completes the dispatch
with a null payload and an unchanged state; every dispatch ends either done
or suspended; a faulted await still completes with a null payload; and the
line-processing loop always continues with the remaining lines. -/
theorem c3_fault_containment :
    (∀ st req i, tryDispatch st req = .error i →
        dispatchStart st req = (.done (i, .val .null), st, []))
    ∧ (∀ st req, (∃ r s2 tr, dispatchStart st req = (.done r, s2, tr))
        ∨ (∃ j k h s2 tr, dispatchStart st req = (.suspended j k h, s2, tr)))
    ∧ (∀ st i k, dispatchResume st i k (.error ()) = ((i, .val .null), st))
    ∧ (∀ st l ls, processLines st (l :: ls)
        = ((processLine st l).1 ++ (processLines (processLine st l).2.2.1 ls).1,
           (processLine st l).2.1 ++ (processLines (processLine st l).2.2.1 ls).2.1,
           (processLines (processLine st l).2.2.1 ls).2.2.1,
           (processLine st l).2.2.2 ++ (processLines (processLine st l).2.2.1 ls).2.2.2)) := by
  refine ⟨?_, ?_, fun st i k => rfl, fun st l ls => rfl⟩
  · intro st req i h
    unfold dispatchStart
    rw [h]
  · intro st req
    rcases htd : tryDispatch st req with e | ⟨o, s2, tr⟩
    · exact Or.inl ⟨_, _, _, by unfold dispatchStart; rw [htd]⟩
    · cases o with
      | done r => exact Or.inl ⟨r, s2, tr, by unfold dispatchStart; rw [htd]⟩
      | suspended j k h => exact Or.inr ⟨j, k, h, s2, tr, by unfold dispatchStart; rw [htd]⟩

/-- Witness for C3: the not-bound fault is caught and still answered. -/
theorem c3_fault_containment_witness :
    dispatchStart exStUnbound (.num 7) = (.done (.val (.num 0), .val .null), exStUnbound, []) :=
  c3_fault_containment.1 exStUnbound (.num 7) (.val (.num 0)) rfl

/-- C7 is refuted on the code: the input line `[]` is valid JSON but not the
expected two-element request shape, yet it is not skipped — with a provider
bound, dispatching it produces exactly one response line `[null,null]`
(the access `request[1].func` throws, the catch swallows the fault, and the
undefined response id stringifies as null). -/
theorem c7_counterexample :
    (processLine exStBound ['[', ']']).1 = [(.jsUndefined, .val .null)]
    ∧ sendLine (.jsUndefined, .val .null) = "[null,null]".toList ++ ['\n'] := by
  constructor
  · decide
  · decide

/-- C7 (amended): a line that is not parseable JSON is dropped: it produces
no response and no suspended dispatch, invokes no cancel, leaves the state
unchanged, and the processing of all subsequent lines is exactly as if the
line had never arrived.  A line that parses as JSON but lacks the expected
request shape is, however, not rejected at decode time: it is dispatched
anyway and produces a response line. -/
theorem c7_malformed_line_skipped (st : IOState) (line : List Char)
    (h : parseJson line = none) :
    processLine st line = ([], [], st, [])
    ∧ ∀ ls, processLines st (line :: ls) = processLines st ls := by
  have hp : processLine st line = ([], [], st, []) := by
    unfold processLine
    rw [h]
  refine ⟨hp, fun ls => ?_⟩
  have he : processLines st (line :: ls)
      = ((processLine st line).1 ++ (processLines (processLine st line).2.2.1 ls).1,
         (processLine st line).2.1 ++ (processLines (processLine st line).2.2.1 ls).2.1,
         (processLines (processLine st line).2.2.1 ls).2.2.1,
         (processLine st line).2.2.2 ++ (processLines (processLine st line).2.2.1 ls).2.2.2) :=
    rfl
  rw [he, hp]
  simp

/-- Witness for C7 (amended) at a concrete unparseable line. -/
theorem c7_malformed_line_skipped_witness :
    processLine exStBound [']'] = ([], [], exStBound, [])
    ∧ ∀ ls, processLines exStBound ([']'] :: ls) = processLines exStBound ls :=
  c7_malformed_line_skipped exStBound [']'] (by decide)

/-- C8: binding stores the provider and touches nothing else; after that,
every event the provider raises is forwarded as exactly one unsolicited
response `[0, eventPayload]` — the id is fixed to 0, the payload is the
event data, the registry is never consulted or changed, and the encoded
line contains no embedded terminator. -/
theorem c8_event_broadcast (st : IOState) (a : Agent) (e : JValue) :
    emitEvent st e = ((.val (.num 0), .val e), st)
    ∧ (emitEvent st e).2.ongoing = st.ongoing
    ∧ bindAgent st a = { st with agent := some a }
    ∧ (bindAgent st a).ongoing = st.ongoing
    ∧ '\n' ∉ encodeResponse (.val (.num 0), .val e)
    ∧ encodeResponse (.val (.num 0), .val e) = '[' :: '0' :: ',' :: (serialize e ++ [']']) := by
  refine ⟨rfl, rfl, rfl, rfl, serialize_no_newline (.arr [.num 0, e]), ?_⟩
  have h0 : intChars 0 = ['0'] := rfl
  simp [encodeResponse, serialize, serializeItems, jsvalToJson, h0]

/-- C9: encoding a Response and then decoding the resulting line yields an
equal value; the encoded form is a single line with no embedded line
terminator, and the full wire line (with its trailing newline) decodes to
the same value. -/
theorem c9_codec_roundtrip (a b : JValue) :
    parseJson (encodeResponse (.val a, .val b)) = some (.arr [a, b])
    ∧ '\n' ∉ encodeResponse (.val a, .val b)
    ∧ parseJson (sendLine (.val a, .val b)) = some (.arr [a, b]) := by
  refine ⟨parseJson_serialize (.arr [a, b]), serialize_no_newline (.arr [a, b]), ?_⟩
  show parseJson (serialize (.arr [a, b]) ++ ['\n']) = some (.arr [a, b])
  unfold parseJson
  have hlen : jsize (.arr [a, b]) ≤ (serialize (.arr [a, b]) ++ ['\n']).length + 1 := by
    have := jsize_le_len (.arr [a, b])
    simp only [List.length_append, List.length_singleton]
    omega
  have h := parseValue_serialize ((serialize (.arr [a, b]) ++ ['\n']).length + 1)
    (.arr [a, b]) ['\n'] hlen (show ('\n').isDigit = false by decide)
  rw [h]
  simp [skipWs, isWsChar]

theorem lookupKey_setKey_self :
    ∀ (reg : List (JStr × PendingHandle)) (k : JStr) (h : PendingHandle),
      lookupKey (setKey reg k h) k = some h
  | [], k, h => by simp [setKey, lookupKey]
  | (k', h') :: t, k, h => by
      simp only [setKey]
      split_ifs with he
      · simp [lookupKey]
      · simp only [lookupKey, if_neg he]
        exact lookupKey_setKey_self t k h

/-- C10: a second request reusing the id of an already-tracked pending
request, itself classified Pending, silently overwrites the first request's
registry entry — after dispatch, the single entry under that id holds the
new handle.  When either operation then resolves, that shared entry is
deleted, and a subsequent cancel of the id finds no entry: it returns false
and leaves the registry unchanged, although the other operation is still
running. -/
theorem c10_id_reuse_overwrite (st : IOState) (ag : Agent) (id : Int)
    (fn : JStr) (args : List JValue) (f : List JSVal → InvokeResult)
    (h1 h2 : PendingHandle) (v : JValue)
    (hag : st.agent = some ag)
    (hnd : nodupKeys st.ongoing)
    (hold : lookupKey st.ongoing (intChars id) = some h1)
    (hfn : fn ≠ "cancelRequest".toList)
    (hf : ag.funcs fn = some f)
    (hres : f (args.map JSVal.val) = .promise h2) :
    dispatchStart st (.arr [.num id, .obj [("func".toList, .str fn),
        ("args".toList, .arr args)]])
      = (.suspended (.val (.num id)) (intChars id) h2,
         { st with ongoing := setKey st.ongoing (intChars id) h2 }, [])
    ∧ lookupKey (setKey st.ongoing (intChars id) h2) (intChars id) = some h2
    ∧ lookupKey (dispatchResume { st with ongoing := setKey st.ongoing (intChars id) h2 }
        (.val (.num id)) (intChars id) (.ok v)).2.ongoing (intChars id) = none
    ∧ cancelCore (dispatchResume { st with ongoing := setKey st.ongoing (intChars id) h2 }
        (.val (.num id)) (intChars id) (.ok v)).2 (intChars id)
      = (false, (dispatchResume { st with ongoing := setKey st.ongoing (intChars id) h2 }
          (.val (.num id)) (intChars id) (.ok v)).2, []) := by
  have hgone : lookupKey (dispatchResume { st with ongoing := setKey st.ongoing (intChars id) h2 }
      (.val (.num id)) (intChars id) (.ok v)).2.ongoing (intChars id) = none := by
    show lookupKey (eraseKey (setKey st.ongoing (intChars id) h2) (intChars id)) (intChars id)
      = none
    exact lookupKey_eraseKey_self _ _ (nodupKeys_setKey _ _ _ hnd)
  refine ⟨?_, lookupKey_setKey_self _ _ _, hgone, ?_⟩
  · have ha : jsIndexNat (.arr [.num id, .obj [("func".toList, .str fn),
        ("args".toList, .arr args)]]) 0 = .ok (.val (.num id)) := rfl
    have hb : jsIndexNat (.arr [.num id, .obj [("func".toList, .str fn),
        ("args".toList, .arr args)]]) 1
        = .ok (.val (.obj [("func".toList, .str fn), ("args".toList, .arr args)])) := rfl
    have hcf : jsProp (.val (.obj [("func".toList, .str fn), ("args".toList, .arr args)]))
        ("func".toList) = .ok (.val (.str fn)) := rfl
    have hca : jsProp (.val (.obj [("func".toList, .str fn), ("args".toList, .arr args)]))
        ("args".toList) = .ok (.val (.arr args)) := rfl
    have hap : applyArgs (.val (.arr args)) = .ok (args.map JSVal.val) := rfl
    have hkf : jsKeyVal (.val (.str fn)) = fn := rfl
    have hki : jsKeyVal (.val (.num id)) = intChars id := rfl
    have hne : ¬(JSVal.val (.str fn) = JSVal.val (.str ("cancelRequest".toList))) := by
      intro he
      apply hfn
      injection he with he1
      injection he1 with he2
    unfold dispatchStart tryDispatch
    rw [hag]
    simp only [ha, hb, hcf, hca, hap, hkf, hki, hne, if_false, hf, hres]
  · unfold cancelCore
    rw [hgone]

/-- Witness for C10: id 5 is already tracked with a plain handle when a
second Pending request with the same id ("job", cancelable handle) is
dispatched; afterwards cancelling id 5 finds nothing. -/
theorem c10_id_reuse_overwrite_witness :
    dispatchStart ⟨some exAgent, [("5".toList, ⟨1, false⟩)]⟩
        (.arr [.num 5, .obj [("func".toList, .str ("job".toList)),
          ("args".toList, .arr [])]])
      = (.suspended (.val (.num 5)) (intChars 5) ⟨2, true⟩,
         ⟨some exAgent, setKey [("5".toList, ⟨1, false⟩)] (intChars 5) ⟨2, true⟩⟩, [])
    ∧ lookupKey (setKey [("5".toList, ⟨1, false⟩)] (intChars 5) ⟨2, true⟩) (intChars 5)
      = some ⟨2, true⟩
    ∧ lookupKey (dispatchResume
        ⟨some exAgent, setKey [("5".toList, ⟨1, false⟩)] (intChars 5) ⟨2, true⟩⟩
        (.val (.num 5)) (intChars 5) (.ok (.num 9))).2.ongoing (intChars 5) = none
    ∧ cancelCore (dispatchResume
        ⟨some exAgent, setKey [("5".toList, ⟨1, false⟩)] (intChars 5) ⟨2, true⟩⟩
        (.val (.num 5)) (intChars 5) (.ok (.num 9))).2 (intChars 5)
      = (false, (dispatchResume
          ⟨some exAgent, setKey [("5".toList, ⟨1, false⟩)] (intChars 5) ⟨2, true⟩⟩
          (.val (.num 5)) (intChars 5) (.ok (.num 9))).2, []) :=
  c10_id_reuse_overwrite ⟨some exAgent, [("5".toList, ⟨1, false⟩)]⟩ exAgent 5
    ("job".toList) [] (fun _ => .promise ⟨2, true⟩) ⟨1, false⟩ ⟨2, true⟩ (.num 9)
    rfl (by decide) (by decide) (by decide) rfl rfl
